import Mathlib

/-!
Verification of the log-reconciliation core of `scripts/process_meetings.py`.

Python strings are modelled as `List Char` (ASCII-faithful: the few places
where Python's `str` methods act on non-ASCII unicode — `str.strip`,
`str.lower`, `re`'s `\s`, `int()` digit classes — are modelled over their
ASCII behaviour, which is all the program's data exercises).  Python dicts
(`Dict[str, str]` rows) are modelled as insertion-ordered association lists
with Python's literal/update semantics.  Fallible operations (`dict[key]`
lookup, `int(...)`) return `Option`; an uncaught exception is `none`.
-/

/-- Python strings, as character lists. -/
abbrev Str := List Char

namespace PM

/-- ASCII whitespace, the characters matched by `re`'s `\s` and stripped by
`str.strip()` on the program's data. -/
def isWs (c : Char) : Bool :=
  c = ' ' || c = '\t' || c = '\n' || c = '\r' || c = '\x0b' || c = '\x0c'

/-- `str.strip()`: drop whitespace from both ends. -/
def pyStrip (l : Str) : Str :=
  ((l.dropWhile isWs).reverse.dropWhile isWs).reverse

/-- Drop trailing whitespace only (helper for reasoning about `pyStrip`). -/
def stripRight (l : Str) : Str :=
  (l.reverse.dropWhile isWs).reverse

/-- `str.strip("|")`: drop `'|'` characters from both ends. -/
def stripPipes (l : Str) : Str :=
  ((l.dropWhile (· = '|')).reverse.dropWhile (· = '|')).reverse

/-- `str.lower()` (ASCII). -/
def lowerStr (l : Str) : Str := l.map Char.toLower

/-- Worker for `re.sub(r"\s+", " ", value)`: the flag records whether we are
inside a whitespace run whose single replacement space was already emitted. -/
def collapseGo : Bool → Str → Str
  | _, [] => []
  | inWs, c :: rest =>
    if isWs c then
      if inWs then collapseGo true rest else ' ' :: collapseGo true rest
    else c :: collapseGo false rest

/-- `re.sub(r"\s+", " ", value)`: replace each maximal whitespace run by one space. -/
def collapseWs (l : Str) : Str := collapseGo false l

/-- `normalize_text(value)`: `re.sub(r"\s+", " ", value).strip().lower()`. -/
def normalize_text (l : Str) : Str := lowerStr (pyStrip (collapseWs l))

/-- Whitespace-separated words of a string (specification-side helper used to
state "differs only in whitespace runs"). The accumulator holds the current
word reversed. -/
def tokensGo (cur : Str) : Str → List Str
  | [] => if cur = [] then [] else [cur.reverse]
  | c :: rest =>
    if isWs c then
      if cur = [] then tokensGo [] rest else cur.reverse :: tokensGo [] rest
    else tokensGo (c :: cur) rest

/-- Whitespace-separated words of a string. -/
def tokens (l : Str) : List Str := tokensGo [] l

/-- `ident.split("-", 1)[1]`: everything after the first `'-'` (the callers
only evaluate it when a dash is present; `[]` stands for the unused branch). -/
def afterFirstDash : Str → Str
  | [] => []
  | c :: rest => if c = '-' then rest else afterFirstDash rest

/-- Decimal digits of a natural number, fuelled so the kernel can evaluate it. -/
def natDigitsF : Nat → Nat → Str
  | 0, _ => []
  | fuel + 1, n =>
    if n < 10 then [Nat.digitChar n]
    else natDigitsF fuel (n / 10) ++ [Nat.digitChar (n % 10)]

/-- Decimal digit string of a natural number (no sign, no padding). -/
def natDigits (n : Nat) : Str := natDigitsF (n + 1) n

/-- Value of a digit string (ignoring any sign/underscores already removed). -/
def digitsVal (l : Str) : Nat := l.foldl (fun a c => 10 * a + (c.toNat - 48)) 0

/-- Digit-group grammar accepted by Python's `int(str)` after the optional
sign: `digit+ ('_' digit+)*`. The flag records whether the current group has
at least one digit so far. -/
def dgAux : Bool → Str → Bool
  | seen, [] => seen
  | seen, c :: rest =>
    if c = '_' then seen && dgAux false rest
    else c.isDigit && dgAux true rest

/-- Python `int(str)`: strip whitespace, optional single sign, then digits
with optional single underscores between digit groups; `none` models the
`ValueError` raised on anything else. -/
def pyInt (l : Str) : Option Int :=
  let t := pyStrip l
  let neg := t.headD ' ' = '-'
  let body := if t.headD ' ' = '+' ∨ t.headD ' ' = '-' then t.tail else t
  if dgAux false body then
    let v : Int := Int.ofNat (digitsVal (body.filter (· ≠ '_')))
    some (if neg then -v else v)
  else none

/-- Python `str(i)` for an `int`. -/
def intRepr (i : Int) : Str :=
  if i < 0 then '-' :: natDigits i.natAbs else natDigits i.toNat

/-- Python `f"{i:04d}"`: zero-pad to overall width 4, sign included. -/
def pad4Int (i : Int) : Str :=
  if i < 0 then
    let ds := natDigits i.natAbs
    '-' :: (List.replicate (3 - ds.length) '0' ++ ds)
  else
    let ds := natDigits i.toNat
    List.replicate (4 - ds.length) '0' ++ ds

/-- Python `sub in text` (substring containment). -/
def containsSub (needle hay : Str) : Bool :=
  hay.tails.any (fun t => needle.isPrefixOf t)

/-- A log row: a Python `Dict[str, str]` as an insertion-ordered association
list with unique keys. -/
abbrev Row := List (Str × Str)

/-- `row.get(k)` as an `Option` (also models `row[k]`, whose `KeyError` is the
`none` case): the value of the first binding of `k`. -/
def rgetOpt : Row → Str → Option Str
  | [], _ => none
  | e :: rest, k => if e.1 = k then some e.2 else rgetOpt rest k

/-- `row.get(k, d)`. -/
def rget (r : Row) (k : Str) (d : Str) : Str := (rgetOpt r k).getD d

/-- `row[k] = v` on a dict: overwrite in place if the key exists (keeping its
position), else append a new binding. -/
def rset : Row → Str → Str → Row
  | [], k, v => [(k, v)]
  | e :: rest, k, v => if e.1 = k then (k, v) :: rest else e :: rset rest k v

/-- A Python dict literal `{k1: v1, ...}`: sequential insertion, so a
duplicated key keeps its first position with the last value. -/
def mkRow (l : List (Str × Str)) : Row :=
  l.foldl (fun r kv => rset r kv.1 kv.2) []

/-- The source meeting of an item. `dateStr` stands for
`meeting_date.strftime("%Y-%m-%d")`: dates only ever reach the reconciliation
core through this formatted string. -/
structure Meeting where
  title : Str
  dateStr : Str
  tag : Str
deriving DecidableEq, Repr

/-- An extracted candidate item (the `Item` dataclass). -/
structure Item where
  kind : Str
  summary : Str
  owner : Str
  meeting : Meeting
  due : Option Str := none
  behavior : Option Str := none
deriving DecidableEq, Repr

/-- The per-row body of `next_id`: if the row's `ID` starts with
`f"{prefix}-"`, the integer value of `ident.split("-", 1)[1]`, else `none`
(a `ValueError` from `int` is caught and also yields `none`). -/
def idVal (pfx : Str) (r : Row) : Option Int :=
  let ident := rget r "ID".data []
  if (pfx ++ ['-']).isPrefixOf ident then pyInt (afterFirstDash ident)
  else none

/-- `next_id(rows, prefix, pad=...)`: scan all rows, track the maximal parsed
ID suffix starting from 0, and render `<prefix>-<max+1>`. -/
def next_id (rows : List Row) (pfx : Str) (pad : Bool) : Str :=
  let highest : Int := rows.foldl
    (fun h r => match idVal pfx r with
      | some v => max h v
      | none => h) 0
  let number := highest + 1
  if pad then pfx ++ '-' :: pad4Int number else pfx ++ '-' :: intRepr number

/-- The candidate row `merge_items` builds for an item (lines 722-734),
including the task-kind meeting suffix and optional `Due` column. -/
def candidateOf (i : Item) (headers : List Str) (meetingF ownerF descF : Str) : Row :=
  let base := mkRow
    [("ID".data, []), ("Date".data, i.meeting.dateStr), (meetingF, i.meeting.title),
     (ownerF, i.owner), (descF, i.summary), ("Status".data, "open".data),
     ("Incidents".data, "1".data)]
  if i.kind = "task".data then
    let b := rset base meetingF (i.meeting.title ++ " (".data ++ i.meeting.tag ++ ")".data)
    match i.due with
    | some d => if d ≠ [] ∧ "Due".data ∈ headers then rset b "Due".data d else b
    | none => b
  else base

/-- The identity key of a row under `key_fields`: the tuple of normalized
field values (line 718/735). -/
def rowKey (keyFields : List Str) (r : Row) : List Str :=
  keyFields.map (fun f => normalize_text (rget r f []))

/-- Assoc-list update with Python-dict semantics on the key→row-reference
index (`existing_index[key] = row`). -/
def idxSet : List (List Str × Nat) → List Str → Nat → List (List Str × Nat)
  | [], k, v => [(k, v)]
  | e :: rest, k, v => if e.1 = k then (k, v) :: rest else e :: idxSet rest k v

/-- `key in existing_index` / `existing_index[key]` lookup. -/
def idxGet : List (List Str × Nat) → List Str → Option Nat
  | [], _ => none
  | e :: rest, k => if e.1 = k then some e.2 else idxGet rest k

/-- `existing_index` built from the initial rows, mapping each identity key to
the position of its (last) row. Python dicts alias row objects; positions into
the row store model that aliasing. -/
def buildIndex (keyFields : List Str) (rows : List Row) : List (List Str × Nat) :=
  (rows.enum).foldl (fun idx p => idxSet idx (rowKey keyFields p.2) p.1) []

/-- Mutable state of the `merge_items` loop: the row store (Python's `rows`
list, which every index entry aliases into) and the key index. -/
structure MSt where
  store : List Row
  index : List (List Str × Nat)
deriving Repr

/-- One iteration of the `merge_items` loop over an item. `none` models an
uncaught exception: `int()`'s `ValueError` on a malformed `Incidents` value,
or the `KeyError` from `candidate["Meeting"]` when no field is named
`Meeting`. -/
def mergeStep (pfx : Str) (headers : List Str) (keyFields : List Str)
    (ownerF descF meetingF : Str) (st : MSt) (i : Item) : Option MSt :=
  let cand := candidateOf i headers meetingF ownerF descF
  let key := rowKey keyFields cand
  match idxGet st.index key with
  | some ref =>
    let row := st.store.getD ref []
    let v := rget row "Incidents".data "0".data
    let v' := if v = [] then "0".data else v
    (pyInt v').bind (fun n =>
      (rgetOpt cand "Date".data).bind (fun d =>
        (rgetOpt cand "Meeting".data).map (fun m =>
          ⟨st.store.set ref (rset (rset (rset row "Incidents".data (intRepr (n + 1)))
            "Date".data d) "Meeting".data m), st.index⟩)))
  | none =>
    let scan := st.store ++ st.index.map (fun e => st.store.getD e.2 [])
    let cand' := rset cand "ID".data (next_id scan pfx true)
    some ⟨st.store ++ [cand'], idxSet st.index key st.store.length⟩

/-- The `merge_items` loop over the item batch. -/
def mergeLoop (pfx : Str) (headers : List Str) (keyFields : List Str)
    (ownerF descF meetingF : Str) : List Item → MSt → Option MSt
  | [], st => some st
  | i :: is, st =>
    match mergeStep pfx headers keyFields ownerF descF meetingF st i with
    | none => none
    | some st' => mergeLoop pfx headers keyFields ownerF descF meetingF is st'

/-- `merge_items(rows, items, prefix, headers, key_fields, owner_field,
desc_field, meeting_field)`. Returns the updated row list, or `none` when the
Python original would raise. -/
def merge_items (rows : List Row) (items : List Item) (pfx : Str)
    (headers : List Str) (keyFields : List Str)
    (ownerF descF meetingF : Str) : Option (List Row) :=
  if headers = [] then some rows
  else (mergeLoop pfx headers keyFields ownerF descF meetingF items
    ⟨rows, buildIndex keyFields rows⟩).map MSt.store

/-- The summary with the meeting provenance folded in
(`f"{summary} ({meeting_suffix})"` in `merge_development_items`). -/
def foldSummary (i : Item) : Str :=
  let parts := [i.meeting.title, i.meeting.dateStr].filter (· ≠ [])
  let meetingSuffix := List.intercalate ", ".data parts
  if meetingSuffix ≠ [] then i.summary ++ " (".data ++ meetingSuffix ++ ")".data
  else i.summary

/-- Index state of `merge_development_items`: keys are
`(normalize_text(description), normalize_text(person))` pairs. -/
def devKey (descF : Str) (r : Row) : Str × Str :=
  (normalize_text (rget r descF []), normalize_text (rget r "Person".data []))

/-- Assoc update for the development index. -/
def dIdxSet : List ((Str × Str) × Nat) → Str × Str → Nat → List ((Str × Str) × Nat)
  | [], k, v => [(k, v)]
  | e :: rest, k, v => if e.1 = k then (k, v) :: rest else e :: dIdxSet rest k v

/-- Lookup in the development index. -/
def dIdxGet : List ((Str × Str) × Nat) → Str × Str → Option Nat
  | [], _ => none
  | e :: rest, k => if e.1 = k then some e.2 else dIdxGet rest k

/-- The `merge_development_items` loop body. This merge is total: `next_id`
catches its own parse errors and no uncaught dict access occurs. -/
def mergeDevStep (pfx descF : Str) (st : List Row × List ((Str × Str) × Nat))
    (i : Item) : List Row × List ((Str × Str) × Nat) :=
  let summary := foldSummary i
  let key := (normalize_text summary, normalize_text i.owner)
  match dIdxGet st.2 key with
  | some ref =>
    let row := st.1.getD ref []
    let row' := rset (rset row "Person".data i.owner) descF summary
    (st.1.set ref row', st.2)
  | none =>
    let newRow := mkRow
      [("ID".data, next_id st.1 pfx true), ("Person".data, i.owner), (descF, summary)]
    (st.1 ++ [newRow], dIdxSet st.2 key st.1.length)

/-- `merge_development_items(rows, items, prefix, desc_field)`. -/
def merge_development_items (rows : List Row) (items : List Item)
    (pfx descF : Str) : List Row :=
  (items.foldl (mergeDevStep pfx descF)
    (rows, (rows.enum).foldl (fun idx p => dIdxSet idx (devKey descF p.2) p.1) [])).1

/-- `pad_id` inside `normalize_development_table`: re-pad a
`<prefix>-<int>` ID to four digits, returning anything else unchanged. -/
def padId (pfx : Str) (ident : Str) : Str :=
  if (pfx ++ ['-']).isPrefixOf ident then
    match pyInt (afterFirstDash ident) with
    | some k => pfx ++ '-' :: pad4Int k
    | none => ident
  else ident

/-- The per-row transform of `normalize_development_table`: fold `Meeting` and
`Date` into the description as a trailing parenthetical and keep only the
target columns. -/
def ndtRow (descF meetingF dateF pfx : Str) (row : Row) : Row :=
  let summary := rget row descF []
  let meeting := rget row meetingF []
  let date := rget row dateF []
  let extraParts := [meeting, date].filter (· ≠ [])
  let summary' :=
    if extraParts ≠ [] then
      summary ++ " (".data ++ List.intercalate ", ".data extraParts ++ ")".data
    else summary
  mkRow [("ID".data, padId pfx (rget row "ID".data [])),
         ("Person".data, rget row "Person".data []), (descF, summary')]

/-- The ID-backfill loop of `normalize_development_table`: walk the list and
give every row with an empty `ID` a fresh one from `next_id` over the whole
in-progress list. Fuelled structural recursion over the list length. -/
def backfillF (pfx : Str) : Nat → Nat → List Row → List Row
  | 0, _, l => l
  | fuel + 1, i, l =>
    if h : i < l.length then
      let r := l.get ⟨i, h⟩
      let l' :=
        if rget r "ID".data [] = [] then l.set i (rset r "ID".data (next_id l pfx true))
        else l
      backfillF pfx fuel (i + 1) l'
    else l

/-- `normalize_development_table(headers, rows, desc_field=..., meeting_field=...,
date_field=..., prefix=...)`. The input headers are not inspected; the result
is the fixed target header list plus the transformed, ID-backfilled rows. -/
def normalize_development_table (_headers : List Str) (rows : List Row)
    (descF meetingF dateF pfx : Str) : List Str × List Row :=
  let normalized := rows.map (ndtRow descF meetingF dateF pfx)
  (["ID".data, "Person".data, descF], backfillF pfx normalized.length 0 normalized)

/-- `write_log`: the full text written to the file (`"\n".join(lines) + "\n"`),
with the pipe-grid header line, separator line and one line per row. -/
def write_log (headers : List Str) (rows : List Row) : Str :=
  let headerLine := "| ".data ++ List.intercalate " | ".data headers ++ " |".data
  let sepLine := "|".data ++
    List.intercalate "|".data (List.replicate headers.length "---".data) ++ "|".data
  let lines := headerLine :: sepLine ::
    rows.map (fun r =>
      "| ".data ++ List.intercalate " | ".data (headers.map (fun h => rget r h [])) ++
      " |".data)
  List.intercalate "\n".data lines ++ "\n".data

/-- Line-break characters recognised by Python's `str.splitlines`. -/
def isLineBreak (c : Char) : Bool :=
  c = '\n' || c = '\r' || c = '\x0b' || c = '\x0c' ||
  c = '\x1c' || c = '\x1d' || c = '\x1e' || c = '\x85' ||
  c = '\u2028' || c = '\u2029'

/-- Worker for `str.splitlines`: the accumulator holds the current line
reversed; `"\r\n"` counts as a single break and a trailing break adds no
empty final line. -/
def splitLinesGo (prevCR : Bool) (cur : Str) : Str → List Str
  | [] => if cur = [] then [] else [cur.reverse]
  | c :: rest =>
    if prevCR && (c == '\n') then splitLinesGo false [] rest
    else if isLineBreak c then cur.reverse :: splitLinesGo (c == '\r') [] rest
    else splitLinesGo false (c :: cur) rest

/-- Python `text.splitlines()`. -/
def splitLines (l : Str) : List Str := splitLinesGo false [] l

/-- `line.split("|")`: split on every `'|'`, keeping empty segments. -/
def splitOnPipe (l : Str) : List Str :=
  l.foldr
    (fun c acc =>
      if c = '|' then [] :: acc
      else (c :: acc.headD []) :: acc.tail) [[]]

/-- `html.unescape` restricted to the entities the program's data can contain. -/
def unescapeHtml : Str → Str
  | [] => []
  | '&' :: 'a' :: 'm' :: 'p' :: ';' :: rest => '&' :: unescapeHtml rest
  | '&' :: 'l' :: 't' :: ';' :: rest => '<' :: unescapeHtml rest
  | '&' :: 'g' :: 't' :: ';' :: rest => '>' :: unescapeHtml rest
  | '&' :: 'q' :: 'u' :: 'o' :: 't' :: ';' :: rest => '"' :: unescapeHtml rest
  | '&' :: '#' :: '3' :: '9' :: ';' :: rest => '\'' :: unescapeHtml rest
  | '&' :: 'a' :: 'p' :: 'o' :: 's' :: ';' :: rest => '\'' :: unescapeHtml rest
  | c :: rest => c :: unescapeHtml rest

/-- First index at which `needle` occurs in `hay`, searching on the lowered
text (the HTML regexes are case-insensitive). -/
def findSubCI (needle hay : Str) : Option Nat :=
  (List.range (hay.length + 1)).find?
    (fun i => needle.isPrefixOf (lowerStr (hay.drop i)))

/-- Non-greedy spans `open …captured… close`, as `re.findall` with `DOTALL`
produces for `<tr>(.*?)</tr>`-style patterns. Fuelled by the text length. -/
def spansAux (opn cls : Str) : Nat → Str → List Str
  | 0, _ => []
  | fuel + 1, hay =>
    match findSubCI opn hay with
    | none => []
    | some i =>
      let afterOpen := hay.drop (i + opn.length)
      match findSubCI cls afterOpen with
      | none => []
      | some j => afterOpen.take j :: spansAux opn cls fuel (afterOpen.drop (j + cls.length))

/-- All non-greedy `open…close` captures in a text. -/
def spansBetween (opn cls : Str) (hay : Str) : List Str :=
  spansAux opn cls (hay.length + 1) hay

/-- Earliest non-greedy `<t[hd]>(.*?)</t[hd]>` capture and the rest of the
text, if any: the cell may open with `th` or `td` and close with either. -/
def nextCell (hay : Str) : Option (Str × Str) :=
  let opens := [("<th>".data, 4), ("<td>".data, 4)]
  let firstOpen := (opens.filterMap (fun o => (findSubCI o.1 hay).map (fun i => (i, o.2)))).foldr
    (fun p best => match best with
      | none => some p
      | some q => if p.1 < q.1 then some p else some q) none
  match firstOpen with
  | none => none
  | some (i, w) =>
    let afterOpen := hay.drop (i + w)
    let closes := ["</th>".data, "</td>".data]
    let firstClose := (closes.filterMap (fun c => findSubCI c afterOpen)).foldr
      (fun p best => match best with
        | none => some p
        | some q => if p < q then some p else some q) none
    match firstClose with
    | none => none
    | some j => some (afterOpen.take j, afterOpen.drop (j + 5))

/-- All cell captures of a row's HTML. Fuelled by the text length. -/
def cellsAux : Nat → Str → List Str
  | 0, _ => []
  | fuel + 1, hay =>
    match nextCell hay with
    | none => []
    | some (cell, rest) => cell :: cellsAux fuel rest

/-- `re.sub(r"<.*?>", "", cell)`: drop non-greedy tag spans. Fuelled. -/
def stripTagsAux : Nat → Str → Str
  | 0, l => l
  | fuel + 1, l =>
    match l with
    | [] => []
    | '<' :: rest =>
      match findSubCI ">".data rest with
      | none => '<' :: stripTagsAux fuel rest
      | some j => stripTagsAux fuel (rest.drop (j + 1))
    | c :: rest => c :: stripTagsAux fuel rest

/-- `clean(cell)`: strip tags, unescape entities, strip whitespace. -/
def cleanHtmlCell (cell : Str) : Str :=
  pyStrip (unescapeHtml (stripTagsAux cell.length cell))

/-- `load_html_table(text)`: rows from `<tr>…</tr>` spans, the first non-empty
one giving the headers. -/
def load_html_table (text : Str) : List Str × List Row :=
  let rowHtmls := spansBetween "<tr>".data "</tr>".data text
  -- Python enumerates the `<tr>` matches: match 0 is the header row, each
  -- later match with a non-empty cell list becomes a data row.
  let rec go (idx : Nat) (headers : List Str) (rows : List Row) :
      List Str → List Str × List Row
    | [] => (headers, rows)
    | rowHtml :: rest =>
      let cells := (cellsAux rowHtml.length rowHtml).map cleanHtmlCell
      if cells = [] then go (idx + 1) headers rows rest
      else if idx = 0 then go (idx + 1) cells rows rest
      else go (idx + 1) headers (rows ++ [mkRow (headers.zip cells)]) rest
  go 0 [] [] rowHtmls

/-- One line of the pipe-grid parser in `load_log_table_from_lines`. -/
def loadLogLine (st : List Str × List Row) (line : Str) : List Str × List Row :=
  if ("|".data).isPrefixOf line then
    let cells := (splitOnPipe (stripPipes (pyStrip line))).map pyStrip
    if st.1 = [] then (cells, st.2)
    else if cells ≠ [] ∧ cells.all (· = "---".data) then st
    else if cells.length ≠ st.1.length then st
    else (st.1, st.2 ++ [mkRow (st.1.zip cells)])
  else st

/-- `load_log_table_from_lines(lines)`: join the lines back, dispatch on the
`"<table"` marker, else run the pipe-grid parser. -/
def load_log_table_from_lines (lines : List Str) : List Str × List Row :=
  let text := List.intercalate "\n".data lines
  if containsSub "<table".data text then load_html_table text
  else lines.foldl loadLogLine ([], [])

/-- Python `str.title()` (ASCII): the first letter of each alphabetic run is
upper-cased, the rest lower-cased. The flag records whether the previous
character was alphabetic. -/
def pyTitleGo : Bool → Str → Str
  | _, [] => []
  | prevAlpha, c :: rest =>
    if c.isAlpha then
      (if prevAlpha then c.toLower else c.toUpper) :: pyTitleGo true rest
    else c :: pyTitleGo false rest

/-- Python `str.title()`. -/
def pyTitle (l : Str) : Str := pyTitleGo false l

/-- `normalize_kind` in `append_development_csv_by_person`. -/
def normalize_kind (value : Str) : Str :=
  let lowered := lowerStr (pyStrip value)
  if lowered = "grow".data then "Grow".data
  else if lowered = "glow".data then "Glow".data
  else pyTitle (pyStrip value)

/-- `normalize_behavior` in `append_development_csv_by_person` (the legacy
path always passes a string, so the `None` case is the empty string). -/
def normalize_behavior (value : Str) : Str :=
  let cleaned := pyStrip value
  if cleaned = [] then []
  else
    let key := lowerStr cleaned
    if key = "student".data then "Student".data
    else if key = "teacher".data then "Teacher".data
    else if key = "community".data then "Community".data
    else if key = "company".data then "Company".data
    else cleaned

/-- `value.split(":", 1)`: the parts before and after the first colon. -/
def splitFirstColon : Str → Str × Str
  | [] => ([], [])
  | c :: rest =>
    if c = ':' then ([], rest)
    else
      let p := splitFirstColon rest
      (c :: p.1, p.2)

/-- `split_legacy_behavior(value)`. -/
def split_legacy_behavior (value : Str) : Str × Str :=
  let raw := pyStrip value
  if raw = [] then ([], [])
  else if ':' ∈ raw then
    let p := splitFirstColon raw
    (normalize_kind p.1, normalize_behavior p.2)
  else (normalize_kind raw, [])

/-- The legacy person-grouped CSV header list. -/
def legacyHeaders : List Str :=
  ["Person".data, "Date".data, "Behavior".data, "Summary".data, "Meeting".data]

/-- The current person-grouped CSV header list (`expected_headers`). -/
def expectedHeaders : List Str :=
  ["Person".data, "Date".data, "Meeting".data, "Kind".data, "Behavior".data, "Summary".data]

/-- The legacy-row rewrite loop of `append_development_csv_by_person`: skip
empty rows, pad to the legacy width, split the combined behavior column and
re-emit the columns in the current layout. -/
def migrateLegacyRows (rows : List (List Str)) : List (List Str) :=
  rows.filterMap (fun row =>
    if row = [] then none
    else
      let padded := row ++ List.replicate (legacyHeaders.length - row.length) []
      if padded.length < legacyHeaders.length then none
      else
        let personVal := padded.getD 0 []
        let dateVal := padded.getD 1 []
        let legacyBehavior := padded.getD 2 []
        let summary := padded.getD 3 []
        let meeting := padded.getD 4 []
        let kb := split_legacy_behavior legacyBehavior
        some [personVal, dateVal, meeting, kb.1, kb.2, summary])

/-- The in-place legacy migration of a person CSV: when the file's header row
equals the legacy layout, the file is rewritten as the current header list
plus the transformed rows (`some`); otherwise no migration happens (`none`). -/
def migratePersonCsv (file : List (List Str)) : Option (List (List Str)) :=
  match file with
  | hdr :: body =>
    if hdr = legacyHeaders then some (expectedHeaders :: migrateLegacyRows body)
    else none
  | [] => none

/-! ### `next_id`: maximum characterization and freshness -/

/-- The highest parsed ID suffix tracked by `next_id`'s loop. -/
def idMax (rows : List Row) (pfx : Str) : Int :=
  rows.foldl
    (fun h r => match idVal pfx r with
      | some v => max h v
      | none => h) 0

/-- Specification-side matcher for the claim's `<prefix>-<n>` ID shape: the
suffix is a digit string (leading zeros allowed), optionally signed. -/
def claimIdNum (l : Str) : Bool :=
  (decide (l ≠ []) && l.all Char.isDigit) ||
  ((l.headD ' ' = '-' || l.headD ' ' = '+') && decide (l.tail ≠ []) &&
    l.tail.all Char.isDigit)

/-- A sample meeting used in concrete witnesses. -/
def mtgW : Meeting := ⟨"Standup".data, "2024-05-06".data, "Meetings.2024-05-06".data⟩

/-- A sample item with summary `"x"` used in concrete witnesses. -/
def itemX : Item := ⟨"risk".data, "x".data, "Dana".data, mtgW, none, none⟩

/-- Development item: summary `"x"` from the `"Standup"` meeting. -/
def devItemA : Item := ⟨"grow".data, "x".data, "Dana".data,
  ⟨"Standup".data, "2024-05-06".data, "Meetings.2024-05-06".data⟩, none, none⟩

/-- The same item but with the meeting title `"STANDUP"` (case change only). -/
def devItemB : Item := ⟨"grow".data, "x".data, "Dana".data,
  ⟨"STANDUP".data, "2024-05-06".data, "Meetings.2024-05-06".data⟩, none, none⟩

/-! ### C2: ID uniqueness and shape through `merge_items` -/

/-- The `ID` column of a row list. -/
def idsOf (rows : List Row) : List Str := rows.map (fun r => rget r "ID".data [])

/-- An ID of the claim's `<prefix>-<digits>` shape. -/
def idShape (pfx s : Str) : Prop :=
  ∃ ds : Str, ds ≠ [] ∧ (∀ c ∈ ds, c.isDigit) ∧ s = pfx ++ '-' :: ds

/-- Invariant carried through the merge loop: the first `n₀` rows are the
original ones, all IDs are pairwise distinct, and every row past `n₀` has a
`<prefix>-<digits>` ID. -/
def mergeInv (pfx : Str) (n₀ : Nat) (st : MSt) : Prop :=
  n₀ ≤ st.store.length ∧ (idsOf st.store).Pairwise (· ≠ ·) ∧
  ∀ k, n₀ ≤ k → k < st.store.length → idShape pfx ((idsOf st.store).getD k [])

/-- A row whose `Incidents` value the matched-update path can parse. -/
def incOk (row : Row) : Prop :=
  ∃ n : Int, pyInt (if rget row "Incidents".data "0".data = [] then "0".data
    else rget row "Incidents".data "0".data) = some n

/-- The item's identity key is present in the store's index and the indexed
row's `Incidents` value parses: the conditions under which a re-merge of the
item takes the update path and succeeds. -/
def canMatch (kf hs : List Str) (ownerF descF : Str) (store : List Row)
    (i : Item) : Prop :=
  ∃ ref, idxGet (buildIndex kf store)
      (rowKey kf (candidateOf i hs "Meeting".data ownerF descF)) = some ref ∧
    ref < store.length ∧ incOk (store.getD ref [])

/-! ### `normalize_development_table`: idempotence infrastructure -/

/-- Rows in the migrated layout: exactly the three target columns, with an
`ID` value that `pad_id` leaves unchanged. -/
def devShape (descF pfx : Str) (row : Row) : Prop :=
  ∃ a p s, row = [("ID".data, a), ("Person".data, p), (descF, s)] ∧
    padId pfx a = a

/-- The folded summary computed inside `normalize_development_table`'s row
loop, named so the row transform can be stated equationally. -/
def ndtSummary (descF mF dF : Str) (row : Row) : Str :=
  let extraParts := [rget row mF [], rget row dF []].filter (· ≠ [])
  if extraParts ≠ [] then
    rget row descF [] ++ " (".data ++ List.intercalate ", ".data extraParts ++
      ")".data
  else rget row descF []

/-! ### `write_log` / `load_log_table_from_lines`: round trip -/

/-- Conditions on one header or cell value under which the pipe grid
round-trips exactly: no pipe characters, no `'<'`, no line-break characters,
and stability under `str.strip()`. -/
def goodCell (c : Str) : Prop :=
  '|' ∉ c ∧ '<' ∉ c ∧ (∀ ch ∈ c, isLineBreak ch = false) ∧ pyStrip c = c

/-- The cell parse applied to each pipe line by the grid parser:
`[cell.strip() for cell in line.strip().strip("|").split("|")]`. -/
def parseCells (line : Str) : List Str :=
  (splitOnPipe (stripPipes (pyStrip line))).map pyStrip

instance goodCellDecidable (c : Str) : Decidable (goodCell c) := by
  unfold goodCell
  infer_instance

end PM

section

open PM

def mtg1 : Meeting := ⟨"Weekly Sync".data, "2024-03-01".data, "Meetings.2024-03-01".data⟩

def item1 : Item := ⟨"risk".data, "Vendor API may deprecate v1".data, "Dana".data, mtg1, none, none⟩

def riskHeaders : List Str :=
  ["ID".data, "Date".data, "Meeting".data, "Owner".data, "Description".data,
   "Status".data, "Incidents".data]

end

namespace PM

/-! ### Basic character and digit lemmas -/

theorem dropWhile_eq_self_of {p : Char → Bool} {l : Str}
    (h : ∀ c ∈ l, ¬ p c) : l.dropWhile p = l := by
  cases l with
  | nil => rfl
  | cons c cs =>
    rw [List.dropWhile_cons_of_neg]
    exact h c (List.mem_cons_self c cs)

theorem pyStrip_eq_self_of {l : Str} (h : ∀ c ∈ l, ¬ isWs c) : pyStrip l = l := by
  unfold pyStrip
  rw [dropWhile_eq_self_of h, dropWhile_eq_self_of, List.reverse_reverse]
  intro c hc
  exact h c (List.mem_reverse.mp hc)

theorem isDigit_not_special {c : Char} (h : c.isDigit) :
    ¬ isWs c ∧ c ≠ '-' ∧ c ≠ '+' ∧ c ≠ '_' := by
  refine ⟨?_, ?_, ?_, ?_⟩ <;> intro hc
  · revert h
    simp only [isWs, Bool.or_eq_true, decide_eq_true_eq] at hc
    rcases hc with ((((h1 | h1) | h1) | h1) | h1) | h1 <;> subst h1 <;> decide
  all_goals subst hc; exact absurd h (by decide)

theorem natDigitsF_spec : ∀ fuel n, n < fuel →
    (natDigitsF fuel n ≠ [] ∧ (∀ c ∈ natDigitsF fuel n, c.isDigit) ∧
     digitsVal (natDigitsF fuel n) = n)
  | 0, n, h => absurd h (Nat.not_lt_zero n)
  | fuel + 1, n, h => by
    rw [natDigitsF]
    by_cases h10 : n < 10
    · rw [if_pos h10]
      refine ⟨by simp, ?_, ?_⟩
      · intro c hc
        rw [List.mem_singleton] at hc
        subst hc
        interval_cases n <;> decide
      · show digitsVal [Nat.digitChar n] = n
        interval_cases n <;> decide
    · rw [if_neg h10]
      push_neg at h10
      have hdiv : n / 10 < fuel := by
        have h1 : n / 10 < n := Nat.div_lt_self (by omega) (by omega)
        omega
      obtain ⟨hne, hdig, hval⟩ := natDigitsF_spec fuel (n / 10) hdiv
      have hmod : n % 10 < 10 := Nat.mod_lt n (by omega)
      refine ⟨by simp, ?_, ?_⟩
      · intro c hc
        rw [List.mem_append, List.mem_singleton] at hc
        rcases hc with hc | hc
        · exact hdig c hc
        · subst hc
          interval_cases h : n % 10 <;> decide
      · show digitsVal (natDigitsF fuel (n / 10) ++ [Nat.digitChar (n % 10)]) = n
        unfold digitsVal at hval ⊢
        rw [List.foldl_append]
        show 10 * List.foldl _ 0 (natDigitsF fuel (n / 10)) + ((Nat.digitChar (n % 10)).toNat - 48) = n
        rw [hval]
        have : (Nat.digitChar (n % 10)).toNat - 48 = n % 10 := by
          interval_cases h : n % 10 <;> decide
        rw [this]
        omega

theorem natDigits_ne_nil (n : Nat) : natDigits n ≠ [] :=
  (natDigitsF_spec (n + 1) n (Nat.lt_succ_self n)).1

theorem natDigits_digits (n : Nat) : ∀ c ∈ natDigits n, c.isDigit :=
  (natDigitsF_spec (n + 1) n (Nat.lt_succ_self n)).2.1

theorem digitsVal_natDigits (n : Nat) : digitsVal (natDigits n) = n :=
  (natDigitsF_spec (n + 1) n (Nat.lt_succ_self n)).2.2

theorem digitsVal_replicate_zero (k : Nat) (l : Str) :
    digitsVal (List.replicate k '0' ++ l) = digitsVal l := by
  induction k with
  | zero => rfl
  | succ k ih =>
    rw [List.replicate_succ, List.cons_append]
    show digitsVal (List.replicate k '0' ++ l) = digitsVal l
    exact ih

theorem dgAux_of_digits : ∀ (b : Bool) (l : Str), (∀ c ∈ l, c.isDigit) → l ≠ [] →
    dgAux b l = true := by
  intro b l
  induction l generalizing b with
  | nil => intro _ h; exact absurd rfl h
  | cons c cs ih =>
    intro hdig _
    have hc : c.isDigit := hdig c (List.mem_cons_self c cs)
    rw [dgAux, if_neg]
    · rw [hc, Bool.true_and]
      cases cs with
      | nil => rfl
      | cons d ds => exact ih true (fun x hx => hdig x (List.mem_cons_of_mem c hx)) (by simp)
    · exact (isDigit_not_special hc).2.2.2

theorem filter_underscore_of_digits {l : Str} (hdig : ∀ c ∈ l, c.isDigit) :
    l.filter (· ≠ '_') = l := by
  rw [List.filter_eq_self.mpr]
  intro a ha
  exact decide_eq_true ((isDigit_not_special (hdig a ha)).2.2.2)

theorem pyInt_of_digits (l : Str) (hne : l ≠ []) (hdig : ∀ c ∈ l, c.isDigit) :
    pyInt l = some (Int.ofNat (digitsVal l)) := by
  have hstrip : pyStrip l = l :=
    pyStrip_eq_self_of (fun c hc => (isDigit_not_special (hdig c hc)).1)
  cases l with
  | nil => exact absurd rfl hne
  | cons c cs =>
    have hc : c.isDigit := hdig c (List.mem_cons_self c cs)
    have hplus : c ≠ '+' := (isDigit_not_special hc).2.2.1
    have hminus : c ≠ '-' := (isDigit_not_special hc).2.1
    simp only [pyInt, hstrip, List.headD_cons]
    rw [if_neg (not_or.mpr ⟨hplus, hminus⟩)]
    rw [if_pos (dgAux_of_digits false (c :: cs) hdig (by simp))]
    rw [if_neg hminus, filter_underscore_of_digits hdig]

theorem pyInt_neg_digits (body : Str) (hne : body ≠ []) (hdig : ∀ c ∈ body, c.isDigit) :
    pyInt ('-' :: body) = some (-(Int.ofNat (digitsVal body))) := by
  have hstrip : pyStrip ('-' :: body) = '-' :: body := by
    apply pyStrip_eq_self_of
    intro c hc
    rw [List.mem_cons] at hc
    rcases hc with hc | hc
    · subst hc; decide
    · exact (isDigit_not_special (hdig c hc)).1
  simp only [pyInt, hstrip, List.headD_cons, List.tail_cons, or_true, if_true,
    eq_self_iff_true]
  rw [if_pos (dgAux_of_digits false body hdig hne), filter_underscore_of_digits hdig]

theorem pad4Int_of_nonneg {i : Int} (h : 0 ≤ i) :
    pad4Int i = List.replicate (4 - (natDigits i.toNat).length) '0' ++ natDigits i.toNat := by
  unfold pad4Int
  rw [if_neg (by omega)]

theorem pad4Int_digits {i : Int} (h : 0 ≤ i) : ∀ c ∈ pad4Int i, c.isDigit := by
  rw [pad4Int_of_nonneg h]
  intro c hc
  rw [List.mem_append] at hc
  rcases hc with hc | hc
  · rw [List.eq_of_mem_replicate hc]; decide
  · exact natDigits_digits _ c hc

theorem pyInt_pad4Int (i : Int) : pyInt (pad4Int i) = some i := by
  by_cases h : 0 ≤ i
  · have hne : pad4Int i ≠ [] := by
      rw [pad4Int_of_nonneg h]
      intro hembed
      exact natDigits_ne_nil i.toNat (List.append_eq_nil.mp hembed).2
    rw [pyInt_of_digits (pad4Int i) hne (pad4Int_digits h)]
    rw [pad4Int_of_nonneg h, digitsVal_replicate_zero, digitsVal_natDigits]
    congr 1
    simp only [Int.ofNat_eq_coe]
    omega
  · push_neg at h
    have hpad : pad4Int i =
        '-' :: (List.replicate (3 - (natDigits i.natAbs).length) '0' ++ natDigits i.natAbs) := by
      unfold pad4Int
      rw [if_pos h]
    set body := List.replicate (3 - (natDigits i.natAbs).length) '0' ++ natDigits i.natAbs with hbody
    have hbodydig : ∀ c ∈ body, c.isDigit := by
      intro c hc
      rw [hbody, List.mem_append] at hc
      rcases hc with hc | hc
      · rw [List.eq_of_mem_replicate hc]; decide
      · exact natDigits_digits _ c hc
    have hbodyne : body ≠ [] := by
      rw [hbody]
      intro hembed
      exact natDigits_ne_nil i.natAbs (List.append_eq_nil.mp hembed).2
    rw [hpad, pyInt_neg_digits body hbodyne hbodydig, hbody,
      digitsVal_replicate_zero, digitsVal_natDigits]
    congr 1
    simp only [Int.ofNat_eq_coe]
    omega

theorem intRepr_of_nonneg {i : Int} (h : 0 ≤ i) : intRepr i = natDigits i.toNat := by
  unfold intRepr
  rw [if_neg (by omega)]

theorem pyInt_intRepr (i : Int) : pyInt (intRepr i) = some i := by
  by_cases h : 0 ≤ i
  · rw [intRepr_of_nonneg h,
      pyInt_of_digits _ (natDigits_ne_nil i.toNat) (natDigits_digits i.toNat),
      digitsVal_natDigits]
    congr 1
    simp only [Int.ofNat_eq_coe]
    omega
  · push_neg at h
    have hrepr : intRepr i = '-' :: natDigits i.natAbs := by
      unfold intRepr
      rw [if_pos h]
    rw [hrepr, pyInt_neg_digits _ (natDigits_ne_nil i.natAbs) (natDigits_digits i.natAbs),
      digitsVal_natDigits]
    congr 1
    simp only [Int.ofNat_eq_coe]
    omega

theorem afterFirstDash_append {p : Str} (hp : '-' ∉ p) (t : Str) :
    afterFirstDash (p ++ '-' :: t) = t := by
  induction p with
  | nil => simp [afterFirstDash]
  | cons c cs ih =>
    rw [List.cons_append, afterFirstDash, if_neg, ih (fun h => hp (List.mem_cons_of_mem c h))]
    intro hc
    exact hp (hc ▸ List.mem_cons_self c cs)

theorem isPrefixOf_append_cons (p : Str) (t : Str) :
    (p ++ ['-']).isPrefixOf (p ++ '-' :: t) = true := by
  rw [List.isPrefixOf_iff_prefix]
  exact ⟨t, by simp⟩

theorem next_id_eq (rows : List Row) (pfx : Str) (pad : Bool) :
    next_id rows pfx pad =
      if pad then pfx ++ '-' :: pad4Int (idMax rows pfx + 1)
      else pfx ++ '-' :: intRepr (idMax rows pfx + 1) := by
  unfold next_id idMax
  cases pad <;> rfl

theorem idMaxFold_init_le (pfx : Str) : ∀ (rows : List Row) (init : Int),
    init ≤ rows.foldl
      (fun h r => match idVal pfx r with
        | some v => max h v
        | none => h) init := by
  intro rows
  induction rows with
  | nil => intro init; exact le_refl init
  | cons r rs ih =>
    intro init
    rw [List.foldl_cons]
    rcases hv : idVal pfx r with _ | v
    · exact ih init
    · exact le_trans (le_max_left init v) (ih (max init v))

theorem idMaxFold_le (pfx : Str) : ∀ (rows : List Row) (init : Int) (r : Row),
    r ∈ rows → ∀ v, idVal pfx r = some v →
    v ≤ rows.foldl
      (fun h r => match idVal pfx r with
        | some v => max h v
        | none => h) init := by
  intro rows
  induction rows with
  | nil => intro _ _ h; exact absurd h (List.not_mem_nil _)
  | cons r0 rs ih =>
    intro init r hr v hv
    rw [List.foldl_cons]
    rcases List.mem_cons.mp hr with hr | hr
    · subst hr
      rw [hv]
      exact le_trans (le_max_right init v) (idMaxFold_init_le pfx rs (max init v))
    · rcases h0 : idVal pfx r0 with _ | v0
      · exact ih init r hr v hv
      · exact ih (max init v0) r hr v hv

theorem idMaxFold_cases (pfx : Str) : ∀ (rows : List Row) (init : Int),
    rows.foldl
      (fun h r => match idVal pfx r with
        | some v => max h v
        | none => h) init = init ∨
    ∃ r ∈ rows, idVal pfx r = some (rows.foldl
      (fun h r => match idVal pfx r with
        | some v => max h v
        | none => h) init) := by
  intro rows
  induction rows with
  | nil => intro init; exact Or.inl rfl
  | cons r0 rs ih =>
    intro init
    rw [List.foldl_cons]
    rcases h0 : idVal pfx r0 with _ | v0
    · rcases ih init with h | ⟨r, hr, hv⟩
      · exact Or.inl h
      · exact Or.inr ⟨r, List.mem_cons_of_mem r0 hr, hv⟩
    · rcases ih (max init v0) with h | ⟨r, hr, hv⟩
      · rw [h]
        rcases le_or_lt v0 init with hle | hlt
        · exact Or.inl (max_eq_left hle)
        · refine Or.inr ⟨r0, List.mem_cons_self r0 rs, ?_⟩
          rw [h0, max_eq_right (le_of_lt hlt)]
      · exact Or.inr ⟨r, List.mem_cons_of_mem r0 hr, hv⟩

theorem idMax_nonneg (rows : List Row) (pfx : Str) : 0 ≤ idMax rows pfx :=
  idMaxFold_init_le pfx rows 0

theorem idVal_le_idMax {rows : List Row} {pfx : Str} {r : Row} (hr : r ∈ rows)
    {v : Int} (hv : idVal pfx r = some v) : v ≤ idMax rows pfx :=
  idMaxFold_le pfx rows 0 r hr v hv

theorem idMax_cases (rows : List Row) (pfx : Str) :
    idMax rows pfx = 0 ∨ ∃ r ∈ rows, idVal pfx r = some (idMax rows pfx) :=
  idMaxFold_cases pfx rows 0

/-- The freshly allocated padded ID never collides with the `ID` of any
scanned row (for a dash-free prefix). -/
theorem next_id_fresh {rows : List Row} {pfx : Str} (hp : '-' ∉ pfx) :
    ∀ r ∈ rows, rget r "ID".data [] ≠ next_id rows pfx true := by
  intro r hr heq
  have hM : 0 ≤ idMax rows pfx := idMax_nonneg rows pfx
  have hdig : ∀ c ∈ pad4Int (idMax rows pfx + 1), c.isDigit :=
    pad4Int_digits (by omega)
  have hval : idVal pfx r = some (idMax rows pfx + 1) := by
    unfold idVal
    rw [heq, next_id_eq, if_pos rfl]
    rw [if_pos]
    · rw [afterFirstDash_append hp, pyInt_pad4Int]
    · exact isPrefixOf_append_cons pfx _
  have := idVal_le_idMax hr hval
  omega

end PM

/-- C3 (amended): `next_id` returns `<prefix>-<max+1>` (zero-padded to 4
digits when padding is enabled, unpadded otherwise) where `max` is tracked
starting from 0 over every row whose `ID` starts with `<prefix>-` and whose
remainder is accepted by Python's `int()`; other IDs are ignored and never
cause a failure (the function is total by construction). On the claim's
example, IDs `R-0001`, `R-0003` give `R-0004`. -/
theorem c3_next_id_max_plus_one :
    (∀ (rows : List PM.Row) (pfx : Str) (pad : Bool), ∃ M : Int,
      0 ≤ M ∧
      (M = 0 ∨ ∃ r ∈ rows, PM.idVal pfx r = some M) ∧
      (∀ r ∈ rows, ∀ v, PM.idVal pfx r = some v → v ≤ M) ∧
      PM.next_id rows pfx pad =
        (if pad then pfx ++ '-' :: PM.pad4Int (M + 1)
         else pfx ++ '-' :: PM.intRepr (M + 1))) ∧
    PM.next_id [[("ID".data, "R-0001".data)], [("ID".data, "R-0003".data)]]
      "R".data true = "R-0004".data := by
  constructor
  · intro rows pfx pad
    exact ⟨PM.idMax rows pfx, PM.idMax_nonneg rows pfx, PM.idMax_cases rows pfx,
      fun r hr v hv => PM.idVal_le_idMax hr hv, PM.next_id_eq rows pfx pad⟩
  · decide

/-- C3 counterexample to the claim as stated: a row whose `ID` is `"R- 7"`
does not have the shape `R-<n>` for any integer `n` (its suffix `" 7"` starts
with a space), so the claim predicts `next_id = "R-0001"`; but Python's
`int(" 7")` succeeds, the code counts the row, and `next_id` returns
`"R-0008"`. -/
theorem c3_counterexample :
    PM.next_id [[("ID".data, "R- 7".data)]] "R".data true = "R-0008".data ∧
    (∀ l : Str, "R- 7".data = "R-".data ++ l → PM.claimIdNum l = false) ∧
    "R-0008".data ≠ "R-0001".data := by
  refine ⟨by decide, ?_, by decide⟩
  intro l hl
  have hl' : l = [' ', '7'] := by
    have h2 : ('R' : Char) :: '-' :: ' ' :: '7' :: [] = 'R' :: '-' :: l := hl
    simpa using h2.symm
  subst hl'
  decide

namespace PM

/-! ### Row access lemmas -/

theorem rgetOpt_rset_self (r : Row) (k v : Str) : rgetOpt (rset r k v) k = some v := by
  induction r with
  | nil => simp [rset, rgetOpt]
  | cons e rest ih =>
    by_cases h : e.1 = k
    · simp [rset, h, rgetOpt]
    · simp only [rset, if_neg h]
      rw [rgetOpt, if_neg h]
      exact ih

theorem rgetOpt_rset_ne (r : Row) {k k' : Str} (h : k' ≠ k) (v : Str) :
    rgetOpt (rset r k v) k' = rgetOpt r k' := by
  induction r with
  | nil =>
    simp only [rset, rgetOpt]
    rw [if_neg (fun hx => h hx.symm)]
  | cons e rest ih =>
    by_cases he : e.1 = k
    · subst he
      rw [show rset (e :: rest) e.1 v = (e.1, v) :: rest from by rw [rset, if_pos rfl]]
      rw [rgetOpt, if_neg (fun hx => h hx.symm), rgetOpt,
        if_neg (fun hx => h hx.symm)]
    · simp only [rset, if_neg he]
      rw [rgetOpt, rgetOpt]
      by_cases he' : e.1 = k'
      · rw [if_pos he', if_pos he']
      · rw [if_neg he', if_neg he']
        exact ih

theorem rget_rset_self (r : Row) (k v d : Str) : rget (rset r k v) k d = v := by
  rw [rget, rgetOpt_rset_self]
  rfl

theorem rget_rset_ne (r : Row) {k k' : Str} (h : k' ≠ k) (v d : Str) :
    rget (rset r k v) k' d = rget r k' d := by
  rw [rget, rgetOpt_rset_ne r h, rget]

theorem isSome_rgetOpt_rset (r : Row) (k k' v : Str) (h : (rgetOpt r k').isSome) :
    (rgetOpt (rset r k v) k').isSome := by
  by_cases hk : k' = k
  · subst hk
    rw [rgetOpt_rset_self]
    rfl
  · rw [rgetOpt_rset_ne r hk]
    exact h

theorem mkRow_append (l : List (Str × Str)) (k v : Str) :
    mkRow (l ++ [(k, v)]) = rset (mkRow l) k v := by
  rw [mkRow, List.foldl_append, List.foldl_cons, List.foldl_nil, mkRow]

/-- Pointwise characterization of equal maps over the same list. -/
theorem map_eq_map_iff_forall {α β : Type} (l : List α) (f g : α → β) :
    l.map f = l.map g ↔ ∀ x ∈ l, f x = g x := by
  induction l with
  | nil => simp
  | cons a as ih => simp [ih]

theorem rowKey_rset_not_mem {kf : List Str} {k : Str} (h : k ∉ kf) (r : Row) (v : Str) :
    rowKey kf (rset r k v) = rowKey kf r := by
  rw [rowKey, rowKey, map_eq_map_iff_forall]
  intro f hf
  rw [rget_rset_ne r (fun he => h (by rw [← he]; exact hf)) v]

/-! ### Candidate-row lemmas (with the default meeting field `"Meeting"`) -/

theorem cand_base_eq (i : Item) (meetingF ownerF descF : Str) :
    mkRow [("ID".data, []), ("Date".data, i.meeting.dateStr), (meetingF, i.meeting.title),
      (ownerF, i.owner), (descF, i.summary), ("Status".data, "open".data),
      ("Incidents".data, "1".data)] =
    rset (rset (rset (rset (rset (rset (rset [] "ID".data []) "Date".data i.meeting.dateStr)
      meetingF i.meeting.title) ownerF i.owner) descF i.summary) "Status".data "open".data)
      "Incidents".data "1".data := by
  simp [mkRow, List.foldl_cons, List.foldl_nil]

theorem cand_incidents (i : Item) (hs : List Str) (ownerF descF : Str) :
    rget (candidateOf i hs "Meeting".data ownerF descF) "Incidents".data [] = "1".data := by
  unfold candidateOf
  rw [cand_base_eq]
  set base := rset (rset (rset (rset (rset (rset (rset [] "ID".data []) "Date".data
    i.meeting.dateStr) "Meeting".data i.meeting.title) ownerF i.owner) descF i.summary)
    "Status".data "open".data) "Incidents".data "1".data with hbase
  have hb : rget base "Incidents".data [] = "1".data := by
    rw [hbase, rget_rset_self]
  by_cases hk : i.kind = "task".data
  · rw [if_pos hk]
    rcases i.due with _ | d
    · rw [rget_rset_ne _ (by decide), hb]
    · by_cases hdue : d ≠ [] ∧ "Due".data ∈ hs
      · simp only [if_pos hdue]
        rw [rget_rset_ne _ (by decide), rget_rset_ne _ (by decide), hb]
      · simp only [if_neg hdue]
        rw [rget_rset_ne _ (by decide), hb]
  · rw [if_neg hk]
    exact hb

theorem cand_date_isSome (i : Item) (hs : List Str) (ownerF descF : Str) :
    (rgetOpt (candidateOf i hs "Meeting".data ownerF descF) "Date".data).isSome := by
  unfold candidateOf
  rw [cand_base_eq]
  set c2 := rset (rset [] "ID".data []) "Date".data i.meeting.dateStr with hc2
  have h2 : (rgetOpt c2 "Date".data).isSome := by
    rw [hc2, rgetOpt_rset_self]
    rfl
  have hbase : (rgetOpt (rset (rset (rset (rset (rset c2 "Meeting".data i.meeting.title)
      ownerF i.owner) descF i.summary) "Status".data "open".data)
      "Incidents".data "1".data) "Date".data).isSome := by
    exact isSome_rgetOpt_rset _ _ _ _ (isSome_rgetOpt_rset _ _ _ _ (isSome_rgetOpt_rset _ _ _ _
      (isSome_rgetOpt_rset _ _ _ _ (isSome_rgetOpt_rset _ _ _ _ h2))))
  by_cases hk : i.kind = "task".data
  · rw [if_pos hk]
    rcases i.due with _ | d
    · exact isSome_rgetOpt_rset _ _ _ _ hbase
    · by_cases hdue : d ≠ [] ∧ "Due".data ∈ hs
      · simp only [if_pos hdue]
        exact isSome_rgetOpt_rset _ _ _ _ (isSome_rgetOpt_rset _ _ _ _ hbase)
      · simp only [if_neg hdue]
        exact isSome_rgetOpt_rset _ _ _ _ hbase
  · rw [if_neg hk]
    exact hbase

theorem cand_meeting_isSome (i : Item) (hs : List Str) (ownerF descF : Str) :
    (rgetOpt (candidateOf i hs "Meeting".data ownerF descF) "Meeting".data).isSome := by
  unfold candidateOf
  rw [cand_base_eq]
  set c3 := rset (rset (rset [] "ID".data []) "Date".data i.meeting.dateStr)
    "Meeting".data i.meeting.title with hc3
  have h3 : (rgetOpt c3 "Meeting".data).isSome := by
    rw [hc3, rgetOpt_rset_self]
    rfl
  have hbase : (rgetOpt (rset (rset (rset (rset c3 ownerF i.owner) descF i.summary)
      "Status".data "open".data) "Incidents".data "1".data) "Meeting".data).isSome := by
    exact isSome_rgetOpt_rset _ _ _ _ (isSome_rgetOpt_rset _ _ _ _ (isSome_rgetOpt_rset _ _ _ _
      (isSome_rgetOpt_rset _ _ _ _ h3)))
  by_cases hk : i.kind = "task".data
  · rw [if_pos hk]
    rcases i.due with _ | d
    · exact isSome_rgetOpt_rset _ _ _ _ hbase
    · by_cases hdue : d ≠ [] ∧ "Due".data ∈ hs
      · simp only [if_pos hdue]
        exact isSome_rgetOpt_rset _ _ _ _ (isSome_rgetOpt_rset _ _ _ _ hbase)
      · simp only [if_neg hdue]
        exact isSome_rgetOpt_rset _ _ _ _ hbase
  · rw [if_neg hk]
    exact hbase

theorem cand_desc (i : Item) (hs : List Str) (ownerF : Str) {descF : Str}
    (hdf1 : descF ≠ "Status".data) (hdf2 : descF ≠ "Incidents".data)
    (hkind : i.kind ≠ "task".data) :
    rget (candidateOf i hs "Meeting".data ownerF descF) descF [] = i.summary := by
  unfold candidateOf
  rw [cand_base_eq, if_neg hkind]
  rw [rget_rset_ne _ hdf2, rget_rset_ne _ hdf1, rget_rset_self]

/-! ### Single-row matched merge -/

theorem buildIndex_singleton (kf : List Str) (r : Row) :
    buildIndex kf [r] = [(rowKey kf r, 0)] := rfl

theorem merge_single_match (r : Row) (i : Item) (pfx : Str) (hs kf : List Str)
    (ownerF descF : Str) (n : Int)
    (hhs : hs ≠ [])
    (hkey : rowKey kf (candidateOf i hs "Meeting".data ownerF descF) = rowKey kf r)
    (hn : pyInt (if rget r "Incidents".data "0".data = [] then "0".data
      else rget r "Incidents".data "0".data) = some n) :
    ∃ d m : Str,
      merge_items [r] [i] pfx hs kf ownerF descF "Meeting".data =
        some [rset (rset (rset r "Incidents".data (intRepr (n + 1)))
          "Date".data d) "Meeting".data m] := by
  obtain ⟨d, hd⟩ := Option.isSome_iff_exists.mp (cand_date_isSome i hs ownerF descF)
  obtain ⟨m, hm⟩ := Option.isSome_iff_exists.mp (cand_meeting_isSome i hs ownerF descF)
  refine ⟨d, m, ?_⟩
  rw [merge_items, if_neg hhs, buildIndex_singleton, mergeLoop]
  have hstep : mergeStep pfx hs kf ownerF descF "Meeting".data
      ⟨[r], [(rowKey kf r, 0)]⟩ i =
      some ⟨[rset (rset (rset r "Incidents".data (intRepr (n + 1)))
        "Date".data d) "Meeting".data m], [(rowKey kf r, 0)]⟩ := by
    simp only [mergeStep]
    rw [show idxGet [(rowKey kf r, 0)]
        (rowKey kf (candidateOf i hs "Meeting".data ownerF descF)) = some 0 from by
      rw [idxGet, if_pos hkey.symm]]
    simp only [List.getD_cons_zero]
    rw [hn, hd, hm]
    rfl
  rw [hstep]
  rfl

end PM

/-- C6 (amended): when a candidate item's identity key matches an existing
row, `merge_items` succeeds and sets the row's `Incidents` field to the string
of `n+1` — where `n` is the existing value parsed by Python's `int()`, with
`n` defaulting to 0 only when the existing value is missing or the empty
string (the `or "0"` in the code). A non-numeric non-empty value such as
`"abc"` is not defaulted: `int("abc")` raises an uncaught `ValueError` and
the merge fails (see the counterexample). -/
theorem c6_incidents_increment (r : PM.Row) (i : PM.Item) (pfx : Str)
    (hs kf : List Str) (ownerF descF : Str) (n : Int)
    (hhs : hs ≠ [])
    (hkey : PM.rowKey kf (PM.candidateOf i hs "Meeting".data ownerF descF) =
      PM.rowKey kf r)
    (hn : PM.pyInt (if PM.rget r "Incidents".data "0".data = [] then "0".data
      else PM.rget r "Incidents".data "0".data) = some n) :
    ∃ r', PM.merge_items [r] [i] pfx hs kf ownerF descF "Meeting".data = some [r'] ∧
      PM.rget r' "Incidents".data [] = PM.intRepr (n + 1) := by
  obtain ⟨d, m, hres⟩ := PM.merge_single_match r i pfx hs kf ownerF descF n hhs hkey hn
  refine ⟨_, hres, ?_⟩
  rw [PM.rget_rset_ne _ (by decide), PM.rget_rset_ne _ (by decide), PM.rget_rset_self]

/-- C6 witness: an existing row with `Incidents="4"` matched by an item with
the same description is updated to `Incidents="5"`. -/
theorem c6_witness :
    ∃ r', PM.merge_items [[("Description".data, "x".data), ("Incidents".data, "4".data)]]
      [PM.itemX] "R".data ["ID".data, "Description".data] ["Description".data]
      "Owner".data "Description".data "Meeting".data = some [r'] ∧
      PM.rget r' "Incidents".data [] = PM.intRepr (4 + 1) :=
  c6_incidents_increment [("Description".data, "x".data), ("Incidents".data, "4".data)]
    PM.itemX "R".data ["ID".data, "Description".data] ["Description".data]
    "Owner".data "Description".data 4 (by decide) (by decide) (by decide)

/-- C6 counterexample to the claim as stated: with an existing matched row
whose `Incidents` is the non-numeric non-empty string `"abc"`, the merge does
not default `n` to 0 — `int("abc")` raises and `merge_items` fails. -/
theorem c6_counterexample :
    PM.merge_items [[("Description".data, "x".data), ("Incidents".data, "abc".data)]]
      [PM.itemX] "R".data ["ID".data, "Description".data] ["Description".data]
      "Owner".data "Description".data "Meeting".data = none := by decide

/-- C7: the claim says `merge_items` succeeds for every `meeting_field` name
and overwrites the row's `meeting_field` column on a match; in fact the
update path reads `candidate["Meeting"]` and writes `row["Meeting"]` with the
key hard-coded, so for any `meeting_field ≠ "Meeting"` (here `"Session"`) a
matched item raises `KeyError` (first conjunct: the merge fails); with the
default field the same merge succeeds and overwrites `Date` and `Meeting`
while leaving the other fields unchanged (second conjunct). -/
theorem c7_meeting_field_hardcoded :
    PM.merge_items [[("Description".data, "x".data), ("Status".data, "open".data)]]
      [PM.itemX] "R".data
      ["ID".data, "Date".data, "Session".data, "Owner".data, "Description".data,
       "Status".data, "Incidents".data]
      ["Description".data] "Owner".data "Description".data "Session".data = none ∧
    PM.merge_items [[("Description".data, "x".data), ("Status".data, "open".data)]]
      [PM.itemX] "R".data
      ["ID".data, "Date".data, "Meeting".data, "Owner".data, "Description".data,
       "Status".data, "Incidents".data]
      ["Description".data] "Owner".data "Description".data "Meeting".data =
    some [[("Description".data, "x".data), ("Status".data, "open".data),
           ("Incidents".data, "1".data), ("Date".data, "2024-05-06".data),
           ("Meeting".data, "Standup".data)]] := by
  constructor <;> decide

namespace PM

/-- The row `merge_development_items` builds for an unmatched item. -/
theorem devRow_eq (nid ow s : Str) (descF : Str) :
    mkRow [("ID".data, nid), ("Person".data, ow), (descF, s)] =
    rset (rset (rset [] "ID".data nid) "Person".data ow) descF s := by
  simp [mkRow, List.foldl_cons, List.foldl_nil]

theorem idMax_singleton (r : Row) (pfx : Str) {v : Int} (hv : idVal pfx r = some v) :
    idMax [r] pfx = max 0 v := by
  unfold idMax
  rw [List.foldl_cons, List.foldl_nil, hv]

theorem idVal_of_id_eq {pfx : Str} (hp : '-' ∉ pfx) {r : Row} {k : Int}
    (hid : rget r "ID".data [] = pfx ++ '-' :: pad4Int k) :
    idVal pfx r = some k := by
  unfold idVal
  rw [hid, if_pos (isPrefixOf_append_cons pfx _), afterFirstDash_append hp, pyInt_pad4Int]

/-- The unmatched-item branch of `mergeDevStep`. -/
theorem mergeDevStep_no_match {pfx descF : Str} {rows : List Row}
    {idx : List ((Str × Str) × Nat)} {i : Item}
    (h : dIdxGet idx (normalize_text (foldSummary i), normalize_text i.owner) = none) :
    mergeDevStep pfx descF (rows, idx) i =
      (rows ++ [mkRow [("ID".data, next_id rows pfx true), ("Person".data, i.owner),
        (descF, foldSummary i)]],
       dIdxSet idx (normalize_text (foldSummary i), normalize_text i.owner) rows.length) := by
  simp only [mergeDevStep]
  rw [h]

theorem devRow_id (nid ow s : Str) {descF : Str} (hd1 : descF ≠ "ID".data) :
    rget (mkRow [("ID".data, nid), ("Person".data, ow), (descF, s)]) "ID".data [] = nid := by
  rw [devRow_eq, rget_rset_ne _ (fun h => hd1 h.symm), rget_rset_ne _ (by decide),
    rget_rset_self]

theorem devRow_person (nid ow s : Str) {descF : Str} (hd2 : descF ≠ "Person".data) :
    rget (mkRow [("ID".data, nid), ("Person".data, ow), (descF, s)]) "Person".data [] = ow := by
  rw [devRow_eq, rget_rset_ne _ (fun h => hd2 h.symm), rget_rset_self]

theorem devRow_desc (nid ow s : Str) (descF : Str) :
    rget (mkRow [("ID".data, nid), ("Person".data, ow), (descF, s)]) descF [] = s := by
  rw [devRow_eq, rget_rset_self]

theorem devKey_devRow (nid ow s : Str) {descF : Str} (hd2 : descF ≠ "Person".data) :
    devKey descF (mkRow [("ID".data, nid), ("Person".data, ow), (descF, s)]) =
      (normalize_text s, normalize_text ow) := by
  rw [devKey, devRow_desc, devRow_person nid ow s hd2]

theorem dIdxGet_nil (k : Str × Str) : dIdxGet [] k = none := rfl

theorem dIdxGet_cons (e : (Str × Str) × Nat) (rest : List ((Str × Str) × Nat))
    (k : Str × Str) :
    dIdxGet (e :: rest) k = if e.1 = k then some e.2 else dIdxGet rest k := rfl

end PM

/-- C10 (amended): in `merge_development_items` the identity key is computed
from the summary after the meeting title and date are folded into it, so an
item with the same person and raw summary but a meeting title/date that still
differs after identity normalization is appended as a new row with a fresh ID
(prefix-0002 next to prefix-0001), leaving the existing row unchanged. -/
theorem c10_dev_key_includes_meeting (i₁ i₂ : PM.Item) (pfx descF : Str)
    (hp : '-' ∉ pfx) (hd1 : descF ≠ "ID".data) (hd2 : descF ≠ "Person".data)
    (_how : i₂.owner = i₁.owner) (_hsum : i₂.summary = i₁.summary)
    (hneq : PM.normalize_text (PM.foldSummary i₂) ≠ PM.normalize_text (PM.foldSummary i₁)) :
    ∃ r₁ r₂ : PM.Row,
      PM.merge_development_items [] [i₁] pfx descF = [r₁] ∧
      PM.merge_development_items [r₁] [i₂] pfx descF = [r₁, r₂] ∧
      PM.rget r₁ "ID".data [] = pfx ++ '-' :: PM.pad4Int 1 ∧
      PM.rget r₂ "ID".data [] = pfx ++ '-' :: PM.pad4Int 2 ∧
      PM.rget r₂ "ID".data [] ≠ PM.rget r₁ "ID".data [] := by
  refine ⟨PM.mkRow [("ID".data, PM.next_id [] pfx true), ("Person".data, i₁.owner),
      (descF, PM.foldSummary i₁)],
    PM.mkRow [("ID".data, PM.next_id [PM.mkRow [("ID".data, PM.next_id [] pfx true),
        ("Person".data, i₁.owner), (descF, PM.foldSummary i₁)]] pfx true),
      ("Person".data, i₂.owner), (descF, PM.foldSummary i₂)],
    ?_, ?_, ?_, ?_, ?_⟩
  case _ =>
    show (List.foldl (PM.mergeDevStep pfx descF)
      (([] : List PM.Row), ([] : List ((Str × Str) × Nat))) [i₁]).1 = _
    rw [List.foldl_cons, List.foldl_nil,
      PM.mergeDevStep_no_match (PM.dIdxGet_nil _)]
    rfl
  case _ =>
    have hdix : PM.dIdxGet [(PM.devKey descF (PM.mkRow [("ID".data, PM.next_id [] pfx true),
        ("Person".data, i₁.owner), (descF, PM.foldSummary i₁)]), 0)]
        (PM.normalize_text (PM.foldSummary i₂), PM.normalize_text i₂.owner) = none := by
      rw [PM.dIdxGet_cons, PM.devKey_devRow _ _ _ hd2,
        if_neg (fun h => hneq (congrArg Prod.fst h).symm), PM.dIdxGet_nil]
    show (List.foldl (PM.mergeDevStep pfx descF)
      ([PM.mkRow [("ID".data, PM.next_id [] pfx true), ("Person".data, i₁.owner),
         (descF, PM.foldSummary i₁)]],
       [(PM.devKey descF (PM.mkRow [("ID".data, PM.next_id [] pfx true),
          ("Person".data, i₁.owner), (descF, PM.foldSummary i₁)]), 0)]) [i₂]).1 = _
    rw [List.foldl_cons, List.foldl_nil, PM.mergeDevStep_no_match hdix]
    rfl
  case _ =>
    rw [PM.devRow_id _ _ _ hd1, PM.next_id_eq]
    rfl
  case _ =>
    rw [PM.devRow_id _ _ _ hd1, PM.next_id_eq, if_pos rfl,
      PM.idMax_singleton _ pfx (PM.idVal_of_id_eq hp (by
        rw [PM.devRow_id _ _ _ hd1, PM.next_id_eq]
        rfl))]
    rfl
  case _ =>
    rw [PM.devRow_id _ _ _ hd1, PM.devRow_id _ _ _ hd1]
    rw [show PM.next_id [] pfx true = pfx ++ '-' :: PM.pad4Int 1 from by
      rw [PM.next_id_eq]; rfl]
    rw [show PM.next_id [PM.mkRow [("ID".data, pfx ++ '-' :: PM.pad4Int 1),
        ("Person".data, i₁.owner), (descF, PM.foldSummary i₁)]] pfx true =
        pfx ++ '-' :: PM.pad4Int 2 from by
      rw [PM.next_id_eq, if_pos rfl,
        PM.idMax_singleton _ pfx (PM.idVal_of_id_eq hp (PM.devRow_id _ _ _ hd1))]
      rfl]
    intro h
    have h2 := List.append_cancel_left h
    have h3 : PM.pad4Int 2 = PM.pad4Int 1 := by injection h2
    exact absurd h3 (by decide)

namespace PM

/-! ### `normalize_text` as lowered whitespace-words joined by single spaces -/

theorem tokensGo_nil (cur : Str) :
    tokensGo cur [] = if cur = [] then [] else [cur.reverse] := rfl

theorem tokensGo_cons (cur : Str) (c : Char) (rest : Str) :
    tokensGo cur (c :: rest) =
      if isWs c then
        (if cur = [] then tokensGo [] rest else cur.reverse :: tokensGo [] rest)
      else tokensGo (c :: cur) rest := rfl

theorem tokens_dropWhile (l : Str) : tokens (l.dropWhile isWs) = tokens l := by
  induction l with
  | nil => rfl
  | cons c cs ih =>
    by_cases h : isWs c
    · have hstep : tokens (c :: cs) = tokens cs := by
        rw [tokens, tokensGo_cons, if_pos h, if_pos rfl]
        rfl
      rw [List.dropWhile_cons_of_pos h, ih, hstep]
    · rw [List.dropWhile_cons_of_neg h]

theorem collapseGo_true (l : Str) :
    collapseGo true l = collapseGo false (l.dropWhile isWs) := by
  induction l with
  | nil => rfl
  | cons c cs ih =>
    by_cases h : isWs c
    · rw [List.dropWhile_cons_of_pos h, ← ih, collapseGo, if_pos h, if_pos rfl]
    · rw [List.dropWhile_cons_of_neg h, collapseGo, if_neg h, collapseGo, if_neg h]

theorem collapseGo_token_prefix (t : Str) (rest : Str) (ht : ∀ c ∈ t, ¬ isWs c) :
    collapseGo false (t ++ rest) = t ++ collapseGo false rest := by
  induction t with
  | nil => rfl
  | cons c cs ih =>
    rw [List.cons_append, collapseGo, if_neg (ht c (List.mem_cons_self c cs)),
      ih (fun x hx => ht x (List.mem_cons_of_mem c hx)), List.cons_append]

theorem tokensGo_token_prefix (t : Str) (cur rest : Str) (ht : ∀ c ∈ t, ¬ isWs c) :
    tokensGo cur (t ++ rest) = tokensGo (t.reverse ++ cur) rest := by
  induction t generalizing cur with
  | nil => rfl
  | cons c cs ih =>
    rw [List.cons_append, tokensGo_cons, if_neg (ht c (List.mem_cons_self c cs)),
      ih (c :: cur) (fun x hx => ht x (List.mem_cons_of_mem c hx))]
    congr 1
    simp

theorem tokensGo_ne_nil (cur : Str) (hcur : cur ≠ []) (l : Str) :
    tokensGo cur l ≠ [] := by
  induction l generalizing cur with
  | nil =>
    rw [tokensGo_nil, if_neg hcur]
    simp
  | cons c cs ih =>
    rw [tokensGo_cons]
    by_cases h : isWs c
    · rw [if_pos h, if_neg hcur]
      simp
    · rw [if_neg h]
      exact ih (c :: cur) (by simp)

theorem dropWhile_append_of_ne_nil {p : Char → Bool} {a : Str} (b : Str)
    (h : a.dropWhile p ≠ []) : (a ++ b).dropWhile p = a.dropWhile p ++ b := by
  induction a with
  | nil => exact absurd rfl h
  | cons c cs ih =>
    by_cases hc : p c
    · rw [List.dropWhile_cons_of_pos hc] at h
      rw [List.cons_append, List.dropWhile_cons_of_pos hc, ih h,
        List.dropWhile_cons_of_pos hc]
    · rw [List.cons_append, List.dropWhile_cons_of_neg hc, List.dropWhile_cons_of_neg hc,
        List.cons_append]

theorem pyStrip_eq_stripRight_of_head {l : Str} (h : ¬ isWs (l.headD 'x')) :
    pyStrip l = stripRight l := by
  have h1 : l.dropWhile isWs = l := by
    cases l with
    | nil => rfl
    | cons c cs => exact List.dropWhile_cons_of_neg h
  rw [pyStrip, h1, stripRight]

theorem stripRight_token (t : Str) (ht : ∀ c ∈ t, ¬ isWs c) :
    stripRight t = t := by
  rw [stripRight, dropWhile_eq_self_of, List.reverse_reverse]
  intro c hc
  exact ht c (List.mem_reverse.mp hc)

theorem stripRight_token_space (t : Str) (ht : ∀ c ∈ t, ¬ isWs c) :
    stripRight (t ++ [' ']) = t := by
  rw [stripRight, List.reverse_append]
  rw [show ([' '] : Str).reverse ++ t.reverse = ' ' :: t.reverse from rfl]
  rw [List.dropWhile_cons_of_pos (by decide)]
  rw [dropWhile_eq_self_of (fun c hc => ht c (List.mem_reverse.mp hc)),
    List.reverse_reverse]

theorem dropWhile_ne_nil_of_mem {p : Char → Bool} {a : Str} {c : Char}
    (hc : c ∈ a) (hpc : ¬ p c) : a.dropWhile p ≠ [] := by
  induction a with
  | nil => cases hc
  | cons d ds ih =>
    by_cases hd : p d
    · rw [List.dropWhile_cons_of_pos hd]
      rcases List.mem_cons.mp hc with h | h
      · subst h
        exact absurd hd hpc
      · exact ih h
    · rw [List.dropWhile_cons_of_neg hd]
      simp

theorem stripRight_append_space (t : Str) {d : Char} (ds : Str) (hd : ¬ isWs d) :
    stripRight (t ++ ' ' :: d :: ds) = t ++ ' ' :: stripRight (d :: ds) := by
  have hne : (d :: ds).reverse.dropWhile isWs ≠ [] :=
    dropWhile_ne_nil_of_mem (List.mem_reverse.mpr (List.mem_cons_self d ds)) hd
  rw [stripRight, List.reverse_append, List.reverse_cons, List.append_assoc,
    dropWhile_append_of_ne_nil _ hne, List.reverse_append, List.reverse_append,
    List.reverse_reverse, stripRight]
  simp

theorem collapseGo_false_cons (c : Char) (rest : Str) :
    collapseGo false (c :: rest) =
      if isWs c then ' ' :: collapseGo true rest else c :: collapseGo false rest := rfl

theorem pyStrip_cons_ws {c : Char} (h : isWs c) (x : Str) :
    pyStrip (c :: x) = pyStrip x := by
  rw [pyStrip, List.dropWhile_cons_of_pos h, pyStrip]

theorem headD_append_of_ne_nil {t : Str} (ht : t ≠ []) (x : Str) (d : Char) :
    (t ++ x).headD d = t.headD d := by
  cases t with
  | nil => exact absurd rfl ht
  | cons c cs => rfl

theorem dropWhile_head_not {p : Char → Bool} :
    ∀ (l : Str) {d : Char} {ds : Str}, l.dropWhile p = d :: ds → ¬ p d := by
  intro l
  induction l with
  | nil => intro d ds h; cases h
  | cons c cs ih =>
    intro d ds h
    by_cases hc : p c
    · rw [List.dropWhile_cons_of_pos hc] at h
      exact ih h
    · rw [List.dropWhile_cons_of_neg hc] at h
      rw [← (List.cons.injEq c cs d ds).mp h |>.1]
      exact hc

theorem intercalate_singleton (s a : Str) : List.intercalate s [a] = a := by
  simp [List.intercalate]

theorem intercalate_cons_ne_nil (s a : Str) {ts : List Str} (h : ts ≠ []) :
    List.intercalate s (a :: ts) = a ++ s ++ List.intercalate s ts := by
  cases ts with
  | nil => exact absurd rfl h
  | cons b ts' =>
    simp [List.intercalate, List.intersperse]

/-- The central normalization lemma: collapsing whitespace runs and stripping
equals joining the whitespace-words with single spaces. -/
theorem pyStrip_collapse_eq_tokens (l : Str) :
    pyStrip (collapseWs l) = List.intercalate [' '] (tokens l) := by
  generalize hn : l.length = n
  induction n using Nat.strong_induction_on generalizing l with
  | _ n ih =>
  cases l with
  | nil => rfl
  | cons c cs =>
    by_cases hws : isWs c
    · -- leading whitespace: strip it on both sides and recurse
      have hcoll : collapseWs (c :: cs) = ' ' :: collapseWs (cs.dropWhile isWs) := by
        rw [collapseWs, collapseGo_false_cons, if_pos hws, collapseGo_true]
        rfl
      have htok : tokens (c :: cs) = tokens (cs.dropWhile isWs) := by
        rw [tokens_dropWhile, tokens, tokensGo_cons, if_pos hws, if_pos rfl]
        rfl
      rw [hcoll, pyStrip_cons_ws (by decide), htok]
      exact ih (cs.dropWhile isWs).length
        (by
          have hle := (List.dropWhile_sublist isWs (l := cs)).length_le
          simp only [List.length_cons] at hn
          omega) _ rfl
    · -- leading word
      have hcf : isWs c = false := by
        revert hws
        cases isWs c <;> simp
      set t := (c :: cs).takeWhile (fun x => !isWs x) with htdef
      set rest := (c :: cs).dropWhile (fun x => !isWs x) with hrdef
      have hsplit : t ++ rest = c :: cs := by
        rw [htdef, hrdef, List.takeWhile_append_dropWhile]
      have ht : ∀ x ∈ t, ¬ isWs x := by
        intro x hx
        have h2 := List.mem_takeWhile_imp hx
        simp only [Bool.not_eq_true'] at h2
        rw [h2]
        simp
      have htcons : t = c :: cs.takeWhile (fun x => !isWs x) := by
        rw [htdef, List.takeWhile_cons]
        simp [hcf]
      have htne : t ≠ [] := by
        rw [htcons]
        simp
      have hrest2 : rest = cs.dropWhile (fun x => !isWs x) := by
        rw [hrdef, List.dropWhile_cons]
        simp [hcf]
      have hrest_le : rest.length ≤ cs.length := by
        rw [hrest2]
        exact (List.dropWhile_sublist _).length_le
      have hcoll : collapseWs (c :: cs) = t ++ collapseWs rest := by
        rw [← hsplit]
        exact collapseGo_token_prefix t rest ht
      have htok : tokens (c :: cs) = tokensGo t.reverse rest := by
        rw [← hsplit, tokens, tokensGo_token_prefix t [] rest ht, List.append_nil]
      rw [hcoll, htok]
      cases hrest : rest with
      | nil =>
        rw [show collapseWs ([] : Str) = [] from rfl, List.append_nil,
          pyStrip_eq_self_of ht, tokensGo_nil,
          if_neg (fun h => htne (by simpa using h)), List.reverse_reverse,
          intercalate_singleton]
      | cons w rs =>
        have hw : isWs w := by
          have := dropWhile_head_not (c :: cs) (hrdef ▸ hrest)
          simpa using this
        have hcollr : collapseWs (w :: rs) = ' ' :: collapseWs (rs.dropWhile isWs) := by
          rw [collapseWs, collapseGo_false_cons, if_pos hw, collapseGo_true]
          rfl
        have htokr : tokensGo t.reverse (w :: rs) = t :: tokens (rs.dropWhile isWs) := by
          rw [tokensGo_cons, if_pos hw, if_neg (fun h => htne (by simpa using h)),
            List.reverse_reverse, tokens_dropWhile]
          rfl
        have hlen : (rs.dropWhile isWs).length < n := by
          have h1 : (rs.dropWhile isWs).length ≤ rs.length :=
            (List.dropWhile_sublist isWs).length_le
          have h2 : rs.length + 1 = rest.length := by rw [hrest]; rfl
          have h3 : (c :: cs).length = n := hn
          simp only [List.length_cons] at h3
          omega
        have hih := ih (rs.dropWhile isWs).length hlen (rs.dropWhile isWs) rfl
        rw [hcollr, htokr]
        have hthead : ¬ isWs ((t ++ ' ' :: collapseWs (rs.dropWhile isWs)).headD 'x') := by
          rw [htcons]
          exact hws
        cases hrs' : rs.dropWhile isWs with
        | nil =>
          rw [hrs'] at hthead
          rw [show collapseWs ([] : Str) = [] from rfl] at hthead ⊢
          rw [pyStrip_eq_stripRight_of_head hthead, stripRight_token_space t ht,
            show tokens ([] : Str) = [] from rfl, intercalate_singleton]
        | cons d ds =>
          rw [hrs'] at hih hthead
          have hd : ¬ isWs d := by
            have := dropWhile_head_not rs hrs'
            simpa using this
          have hcd : collapseWs (d :: ds) = d :: collapseGo false ds := by
            rw [collapseWs, collapseGo_false_cons, if_neg hd]
          have htne' : tokens (d :: ds) ≠ [] := by
            rw [tokens, tokensGo_cons, if_neg hd]
            exact tokensGo_ne_nil [d] (by simp) ds
          rw [hcd] at hthead ⊢
          rw [pyStrip_eq_stripRight_of_head hthead,
            stripRight_append_space t _ hd,
            ← pyStrip_eq_stripRight_of_head (show ¬ isWs ((d ::
              collapseGo false ds).headD 'x') from hd),
            ← hcd, hih, intercalate_cons_ne_nil _ _ htne']
          simp [List.append_assoc]

theorem lowerStr_append (a b : Str) : lowerStr (a ++ b) = lowerStr a ++ lowerStr b :=
  List.map_append _ a b

theorem lowerStr_intercalate_space (ts : List Str) :
    lowerStr (List.intercalate [' '] ts) = List.intercalate [' '] (ts.map lowerStr) := by
  induction ts with
  | nil => rfl
  | cons a ts ih =>
    cases ts with
    | nil =>
      rw [intercalate_singleton, List.map_cons, List.map_nil, intercalate_singleton]
    | cons b ts' =>
      rw [intercalate_cons_ne_nil [' '] a (show (b :: ts') ≠ [] from by simp),
        List.map_cons,
        intercalate_cons_ne_nil [' '] (lowerStr a)
          (show List.map lowerStr (b :: ts') ≠ [] from by simp),
        lowerStr_append, lowerStr_append, ih,
        show lowerStr [' '] = [' '] from by decide]

/-- `normalize_text` is exactly: lower-case the whitespace-words and join them
with single spaces. -/
theorem normalize_text_eq_tokens (l : Str) :
    normalize_text l = List.intercalate [' '] ((tokens l).map lowerStr) := by
  rw [normalize_text, pyStrip_collapse_eq_tokens, lowerStr_intercalate_space]

end PM

/-- C9: `normalize_text` collapses every whitespace run to a single space,
trims, and lower-cases — stated as: it equals the lower-cased
whitespace-words joined by single spaces (first conjunct). Consequently an
item whose summary differs from an existing row's description only in letter
case and/or whitespace runs (same lowered word list) merges into that row —
the result is still a single row with `Incidents` incremented — rather than
appending a new row (second conjunct; identity key on the description field,
as for risks/issues/development kinds). -/
theorem c9_normalization_insensitivity :
    (∀ s : Str, PM.normalize_text s =
      List.intercalate [' '] ((PM.tokens s).map PM.lowerStr)) ∧
    (∀ (r : PM.Row) (i : PM.Item) (pfx : Str) (hs : List Str) (ownerF descF : Str)
      (n : Int),
      hs ≠ [] →
      descF ≠ "Status".data → descF ≠ "Incidents".data → i.kind ≠ "task".data →
      (PM.tokens i.summary).map PM.lowerStr =
        (PM.tokens (PM.rget r descF [])).map PM.lowerStr →
      PM.pyInt (if PM.rget r "Incidents".data "0".data = [] then "0".data
        else PM.rget r "Incidents".data "0".data) = some n →
      ∃ r', PM.merge_items [r] [i] pfx hs [descF] ownerF descF "Meeting".data =
          some [r'] ∧
        PM.rget r' "Incidents".data [] = PM.intRepr (n + 1)) := by
  constructor
  · exact PM.normalize_text_eq_tokens
  · intro r i pfx hs ownerF descF n hhs hdf1 hdf2 hkind htoks hn
    have hkey : PM.rowKey [descF] (PM.candidateOf i hs "Meeting".data ownerF descF) =
        PM.rowKey [descF] r := by
      rw [PM.rowKey, PM.rowKey, List.map_cons, List.map_nil, List.map_cons, List.map_nil,
        PM.cand_desc i hs ownerF hdf1 hdf2 hkind,
        PM.normalize_text_eq_tokens, PM.normalize_text_eq_tokens, htoks]
    obtain ⟨d, m, hres⟩ := PM.merge_single_match r i pfx hs [descF] ownerF descF n
      hhs hkey hn
    refine ⟨_, hres, ?_⟩
    rw [PM.rget_rset_ne _ (by decide), PM.rget_rset_ne _ (by decide), PM.rget_rset_self]

/-- C9 witness: `"FOO   bar"` vs `" foo BAR "` differ only in case and
whitespace, so the item merges into the row, giving `Incidents="3"`. -/
theorem c9_witness :
    ∃ r', PM.merge_items
        [[("Area".data, "FOO   bar".data), ("Incidents".data, "2".data)]]
        [⟨"grow".data, " foo BAR ".data, "Dana".data, PM.mtgW, none, none⟩]
        "G".data ["ID".data, "Person".data, "Area".data] ["Area".data]
        "Person".data "Area".data "Meeting".data = some [r'] ∧
      PM.rget r' "Incidents".data [] = PM.intRepr (2 + 1) :=
  (c9_normalization_insensitivity).2
    [("Area".data, "FOO   bar".data), ("Incidents".data, "2".data)]
    ⟨"grow".data, " foo BAR ".data, "Dana".data, PM.mtgW, none, none⟩
    "G".data ["ID".data, "Person".data, "Area".data] "Person".data "Area".data 2
    (by decide) (by decide) (by decide) (by decide) (by decide) (by decide)

namespace PM

theorem rget_update_id (row : Row) (x d m : Str) :
    rget (rset (rset (rset row "Incidents".data x) "Date".data d) "Meeting".data m)
      "ID".data [] = rget row "ID".data [] := by
  rw [rget_rset_ne _ (by decide), rget_rset_ne _ (by decide), rget_rset_ne _ (by decide)]

theorem idsOf_set (l : List Row) (i : Nat) (a : Row)
    (h : rget a "ID".data [] = rget (l.getD i []) "ID".data []) :
    idsOf (l.set i a) = idsOf l := by
  induction l generalizing i with
  | nil => rfl
  | cons e es ih =>
    cases i with
    | zero =>
      rw [List.set_cons_zero, idsOf, List.map_cons, idsOf, List.map_cons]
      rw [show (e :: es).getD 0 [] = e from rfl] at h
      rw [h]
    | succ i =>
      rw [List.set_cons_succ, idsOf, List.map_cons, idsOf, List.map_cons]
      rw [show (e :: es).getD (i + 1) [] = es.getD i [] from rfl] at h
      congr 1
      exact ih i h

theorem idsOf_append (l1 l2 : List Row) : idsOf (l1 ++ l2) = idsOf l1 ++ idsOf l2 :=
  List.map_append _ l1 l2

theorem idsOf_length (l : List Row) : (idsOf l).length = l.length :=
  List.length_map l _

theorem idsOf_getD (l : List Row) (k : Nat) (h : k < l.length) :
    (idsOf l).getD k [] = rget (l.getD k []) "ID".data [] := by
  induction l generalizing k with
  | nil => cases h
  | cons e es ih =>
    cases k with
    | zero => rfl
    | succ k =>
      rw [show (idsOf (e :: es)).getD (k + 1) [] = (idsOf es).getD k [] from rfl,
        show (e :: es).getD (k + 1) [] = es.getD k [] from rfl]
      exact ih k (by simpa using Nat.lt_of_succ_lt_succ h)

theorem next_id_shape (rows : List Row) (pfx : Str) :
    idShape pfx (next_id rows pfx true) := by
  refine ⟨pad4Int (idMax rows pfx + 1), ?_, pad4Int_digits (by
    have := idMax_nonneg rows pfx
    omega), ?_⟩
  · rw [pad4Int_of_nonneg (by have := idMax_nonneg rows pfx; omega)]
    intro hembed
    exact natDigits_ne_nil _ (List.append_eq_nil.mp hembed).2
  · rw [next_id_eq]
    rfl

theorem pairwise_ne_snoc {ids : List Str} {a : Str}
    (h1 : ids.Pairwise (· ≠ ·)) (h2 : ∀ x ∈ ids, x ≠ a) :
    (ids ++ [a]).Pairwise (· ≠ ·) := by
  rw [List.pairwise_append]
  refine ⟨h1, List.pairwise_singleton _ _, ?_⟩
  intro x hx y hy
  rw [List.mem_singleton] at hy
  subst hy
  exact h2 x hx

theorem mergeStep_inv {pfx : Str} {hs kf : List Str} {ownerF descF meetingF : Str}
    {n₀ : Nat} {st st' : MSt} {i : Item} (hp : '-' ∉ pfx)
    (hstep : mergeStep pfx hs kf ownerF descF meetingF st i = some st')
    (hinv : mergeInv pfx n₀ st) : mergeInv pfx n₀ st' := by
  obtain ⟨hlen, hpw, hshape⟩ := hinv
  simp only [mergeStep] at hstep
  split at hstep
  case _ ref hidx =>
    -- match: in-place update, IDs untouched
    rcases hval : pyInt (if rget (st.store.getD ref []) "Incidents".data "0".data = []
        then "0".data else rget (st.store.getD ref []) "Incidents".data "0".data)
      with _ | nv
    · rw [hval] at hstep
      cases hstep
    rw [hval] at hstep
    rcases hdate : rgetOpt (candidateOf i hs meetingF ownerF descF) "Date".data
      with _ | d
    · rw [hdate] at hstep
      simp only [Option.some_bind, Option.none_bind] at hstep
      cases hstep
    · rw [hdate] at hstep
      rcases hmeet : rgetOpt (candidateOf i hs meetingF ownerF descF) "Meeting".data
        with _ | m
      · rw [hmeet] at hstep
        simp only [Option.some_bind, Option.map_none'] at hstep
        cases hstep
      · rw [hmeet] at hstep
        simp only [Option.some_bind, Option.map_some'] at hstep
        have hst' : st' = ⟨st.store.set ref
            (rset (rset (rset (st.store.getD ref []) "Incidents".data (intRepr (nv + 1)))
              "Date".data d) "Meeting".data m), st.index⟩ :=
          (Option.some.inj hstep).symm
        have hids : idsOf st'.store = idsOf st.store := by
          rw [hst']
          exact idsOf_set _ ref _ (rget_update_id _ _ _ _)
        have hlen' : st'.store.length = st.store.length := by
          rw [hst']
          exact List.length_set _ _ _
        refine ⟨by rw [hlen']; exact hlen, by rw [hids]; exact hpw, ?_⟩
        intro k hk1 hk2
        rw [hids]
        exact hshape k hk1 (by rw [hlen'] at hk2; exact hk2)
  case _ hidx =>
    -- no match: append a fresh row
    have hst' : st' = ⟨st.store ++
        [rset (candidateOf i hs meetingF ownerF descF) "ID".data
          (next_id (st.store ++ st.index.map (fun e => st.store.getD e.2 []))
            pfx true)], idxSet st.index
          (rowKey kf (candidateOf i hs meetingF ownerF descF)) st.store.length⟩ := by
      exact (Option.some.inj hstep).symm
    set newId := next_id (st.store ++ st.index.map (fun e => st.store.getD e.2 []))
      pfx true with hnew
    have hfresh : ∀ x ∈ idsOf st.store, x ≠ newId := by
      intro x hx
      obtain ⟨r, hr, hxr⟩ := List.mem_map.mp hx
      rw [← hxr, hnew]
      exact next_id_fresh hp r (List.mem_append_left _ hr)
    have hids : idsOf st'.store = idsOf st.store ++ [newId] := by
      rw [hst', idsOf_append]
      rw [show idsOf [rset (candidateOf i hs meetingF ownerF descF) "ID".data newId] =
        [newId] from by
          rw [idsOf, List.map_cons, List.map_nil, rget_rset_self]]
    refine ⟨?_, ?_, ?_⟩
    · rw [hst']
      simp only [List.length_append, List.length_cons, List.length_nil]
      omega
    · rw [hids]
      exact pairwise_ne_snoc hpw hfresh
    · intro k hk1 hk2
      rw [hids]
      have hklen : k < st.store.length + 1 := by
        rw [hst'] at hk2
        simpa using hk2
      by_cases hkcase : k < st.store.length
      · rw [List.getD_append _ _ _ _ (by rw [idsOf_length]; exact hkcase)]
        exact hshape k hk1 hkcase
      · have hkeq : k = st.store.length := by omega
        subst hkeq
        rw [show (idsOf st.store ++ [newId]).getD st.store.length [] = newId from by
          rw [List.getD_eq_getElem?_getD, List.getElem?_append_right
            (by rw [idsOf_length])]
          rw [idsOf_length]
          simp]
        rw [hnew]
        exact next_id_shape _ pfx

theorem mergeLoop_inv {pfx : Str} {hs kf : List Str} {ownerF descF meetingF : Str}
    {n₀ : Nat} (hp : '-' ∉ pfx) :
    ∀ (items : List Item) (st st' : MSt),
      mergeLoop pfx hs kf ownerF descF meetingF items st = some st' →
      mergeInv pfx n₀ st → mergeInv pfx n₀ st' := by
  intro items
  induction items with
  | nil =>
    intro st st' hm hinv
    rw [mergeLoop] at hm
    rw [← Option.some.inj hm]
    exact hinv
  | cons i is ih =>
    intro st st' hm hinv
    rw [mergeLoop] at hm
    rcases hstep : mergeStep pfx hs kf ownerF descF meetingF st i with _ | st₁
    · rw [hstep] at hm
      cases hm
    · rw [hstep] at hm
      exact ih st₁ st' hm (mergeStep_inv hp hstep hinv)

end PM

/-- C2: for every starting row set with pairwise-distinct IDs and every batch
of items, the row set returned by `merge_items` still has pairwise-distinct
IDs, and every newly appended row's ID matches `<prefix>-<digits>` — the
allocator never assigns an ID already present. (The record-kind prefixes of
the program — `R`, `I`, `T`, `G`, `GL` — are dash-free, which the freshness
argument uses.) -/
theorem c2_merge_id_uniqueness (rows : List PM.Row) (items : List PM.Item)
    (pfx : Str) (hs kf : List Str) (ownerF descF meetingF : Str)
    (r' : List PM.Row) (hp : '-' ∉ pfx)
    (hdist : (PM.idsOf rows).Pairwise (· ≠ ·))
    (hm : PM.merge_items rows items pfx hs kf ownerF descF meetingF = some r') :
    (PM.idsOf r').Pairwise (· ≠ ·) ∧
    ∀ r ∈ r'.drop rows.length, PM.idShape pfx (PM.rget r "ID".data []) := by
  rw [PM.merge_items] at hm
  by_cases hhs : hs = []
  · rw [if_pos hhs] at hm
    rw [← Option.some.inj hm]
    refine ⟨hdist, ?_⟩
    intro r hr
    rw [List.drop_length] at hr
    cases hr
  · rw [if_neg hhs] at hm
    rcases hloop : PM.mergeLoop pfx hs kf ownerF descF meetingF items
        ⟨rows, PM.buildIndex kf rows⟩ with _ | stf
    · rw [hloop] at hm
      cases hm
    · rw [hloop] at hm
      simp only [Option.map_some'] at hm
      have hinv0 : PM.mergeInv pfx rows.length ⟨rows, PM.buildIndex kf rows⟩ :=
        ⟨le_refl _, hdist, fun k hk1 hk2 => absurd (Nat.lt_of_le_of_lt hk1 hk2)
          (lt_irrefl _)⟩
      have hinv := PM.mergeLoop_inv hp items _ stf hloop hinv0
      obtain ⟨hlen, hpw, hshape⟩ := hinv
      have hr' : r' = stf.store := (Option.some.inj hm).symm
      subst hr'
      refine ⟨hpw, ?_⟩
      intro r hr
      obtain ⟨j, hj, hjr⟩ := List.getElem_of_mem hr
      rw [List.getElem_drop] at hjr
      have hjlen : rows.length + j < stf.store.length := by
        have := List.length_drop rows.length stf.store
        omega
      have hgd : stf.store.getD (rows.length + j) [] = r := by
        rw [List.getD_eq_getElem?_getD, List.getElem?_eq_getElem hjlen]
        simpa using hjr
      have := hshape (rows.length + j) (Nat.le_add_right _ _) hjlen
      rw [PM.idsOf_getD _ _ hjlen, hgd] at this
      exact this

/-- C2 witness: merging one item into a row set holding `R-0007` appends a
fresh `R-0008` row, keeping all IDs distinct and digit-shaped. -/
theorem c2_witness :
    (PM.idsOf [[("ID".data, "R-0007".data)],
      [("ID".data, "R-0008".data), ("Date".data, "2024-05-06".data),
       ("Meeting".data, "Standup".data), ("Owner".data, "Dana".data),
       ("Description".data, "x".data), ("Status".data, "open".data),
       ("Incidents".data, "1".data)]]).Pairwise (· ≠ ·) ∧
    ∀ r ∈ ([[("ID".data, "R-0007".data)],
      [("ID".data, "R-0008".data), ("Date".data, "2024-05-06".data),
       ("Meeting".data, "Standup".data), ("Owner".data, "Dana".data),
       ("Description".data, "x".data), ("Status".data, "open".data),
       ("Incidents".data, "1".data)]] : List PM.Row).drop
        ([[("ID".data, "R-0007".data)]] : List PM.Row).length,
      PM.idShape "R".data (PM.rget r "ID".data []) :=
  c2_merge_id_uniqueness [[("ID".data, "R-0007".data)]] [PM.itemX] "R".data
    riskHeaders ["Description".data] "Owner".data "Description".data "Meeting".data
    [[("ID".data, "R-0007".data)],
     [("ID".data, "R-0008".data), ("Date".data, "2024-05-06".data),
      ("Meeting".data, "Standup".data), ("Owner".data, "Dana".data),
      ("Description".data, "x".data), ("Status".data, "open".data),
      ("Incidents".data, "1".data)]]
    (by decide) (by decide) (by decide)

namespace PM

/-! ### C1: matched-key infrastructure -/

theorem getD_set_self (l : List Row) (i : Nat) (a : Row) (h : i < l.length) :
    (l.set i a).getD i [] = a := by
  induction l generalizing i with
  | nil => cases h
  | cons e es ih =>
    cases i with
    | zero => rfl
    | succ i => exact ih i (Nat.lt_of_succ_lt_succ h)

theorem getD_set_ne (l : List Row) {i j : Nat} (h : j ≠ i) (a : Row) :
    (l.set i a).getD j [] = l.getD j [] := by
  induction l generalizing i j with
  | nil => rfl
  | cons e es ih =>
    cases i with
    | zero =>
      cases j with
      | zero => exact absurd rfl h
      | succ j => rfl
    | succ i =>
      cases j with
      | zero => rfl
      | succ j => exact ih (fun hx => h (by omega))

theorem getD_append_length (l : List Row) (r : Row) :
    (l ++ [r]).getD l.length [] = r := by
  rw [List.getD_eq_getElem?_getD, List.getElem?_append_right (le_refl _)]
  simp

theorem map_set_of_eq {β : Type} (f : Row → β) (l : List Row) (i : Nat) (a : Row)
    (h : f a = f (l.getD i [])) : (l.set i a).map f = l.map f := by
  induction l generalizing i with
  | nil => rfl
  | cons e es ih =>
    cases i with
    | zero =>
      rw [List.set_cons_zero, List.map_cons, List.map_cons]
      rw [show (e :: es).getD 0 [] = e from rfl] at h
      rw [h]
    | succ i =>
      rw [List.set_cons_succ, List.map_cons, List.map_cons]
      rw [show (e :: es).getD (i + 1) [] = es.getD i [] from rfl] at h
      congr 1
      exact ih i h

theorem idxGet_nil (k : List Str) : idxGet [] k = none := rfl

theorem idxGet_cons (e : List Str × Nat) (rest : List (List Str × Nat)) (k : List Str) :
    idxGet (e :: rest) k = if e.1 = k then some e.2 else idxGet rest k := rfl

theorem idxGet_idxSet (idx : List (List Str × Nat)) (k k' : List Str) (v : Nat) :
    idxGet (idxSet idx k v) k' = if k' = k then some v else idxGet idx k' := by
  induction idx with
  | nil =>
    rw [show idxSet [] k v = [(k, v)] from rfl, idxGet_cons, idxGet_nil]
    by_cases h : k' = k
    · rw [if_pos h.symm, if_pos h]
    · rw [if_neg (fun hx => h hx.symm), if_neg h]
  | cons e rest ih =>
    by_cases he : e.1 = k
    · rw [show idxSet (e :: rest) k v = (k, v) :: rest from by rw [idxSet, if_pos he],
        idxGet_cons, idxGet_cons]
      by_cases h : k' = k
      · rw [if_pos h.symm, if_pos h]
      · rw [if_neg (fun hx => h hx.symm), if_neg h,
          if_neg (fun hx : e.1 = k' => h (hx.symm.trans he))]
    · rw [show idxSet (e :: rest) k v = e :: idxSet rest k v from by
        rw [idxSet, if_neg he], idxGet_cons, idxGet_cons, ih]
      by_cases h' : e.1 = k'
      · rw [if_pos h', if_pos h', if_neg (fun hk : k' = k => he (h'.trans hk))]
      · rw [if_neg h', if_neg h']

theorem buildIndexFrom_snoc (kf : List Str) :
    ∀ (rows : List Row) (n : Nat) (idx : List (List Str × Nat)) (r : Row),
      ((rows ++ [r]).enumFrom n).foldl
        (fun idx p => idxSet idx (rowKey kf p.2) p.1) idx =
      idxSet ((rows.enumFrom n).foldl
        (fun idx p => idxSet idx (rowKey kf p.2) p.1) idx)
        (rowKey kf r) (n + rows.length) := by
  intro rows
  induction rows with
  | nil =>
    intro n idx r
    rfl
  | cons e es ih =>
    intro n idx r
    rw [show ((e :: es) ++ [r]).enumFrom n = (n, e) :: (es ++ [r]).enumFrom (n + 1)
      from rfl]
    rw [show (e :: es).enumFrom n = (n, e) :: es.enumFrom (n + 1) from rfl]
    rw [List.foldl_cons, List.foldl_cons, ih]
    congr 1
    simp only [List.length_cons]
    omega

theorem buildIndex_snoc (kf : List Str) (rows : List Row) (r : Row) :
    buildIndex kf (rows ++ [r]) =
      idxSet (buildIndex kf rows) (rowKey kf r) rows.length := by
  rw [buildIndex, buildIndex]
  rw [show (rows ++ [r]).enum = (rows ++ [r]).enumFrom 0 from rfl,
    show rows.enum = rows.enumFrom 0 from rfl]
  rw [buildIndexFrom_snoc kf rows 0 [] r]
  rw [Nat.zero_add]

theorem buildIndexFrom_congr (kf : List Str) :
    ∀ (rows₁ rows₂ : List Row) (n : Nat) (idx : List (List Str × Nat)),
      rows₁.map (rowKey kf) = rows₂.map (rowKey kf) →
      (rows₁.enumFrom n).foldl (fun idx p => idxSet idx (rowKey kf p.2) p.1) idx =
      (rows₂.enumFrom n).foldl (fun idx p => idxSet idx (rowKey kf p.2) p.1) idx := by
  intro rows₁
  induction rows₁ with
  | nil =>
    intro rows₂ n idx h
    cases rows₂ with
    | nil => rfl
    | cons e es => cases h
  | cons e es ih =>
    intro rows₂ n idx h
    cases rows₂ with
    | nil => cases h
    | cons e₂ es₂ =>
      rw [List.map_cons, List.map_cons] at h
      have h1 : rowKey kf e = rowKey kf e₂ := (List.cons.injEq _ _ _ _).mp h |>.1
      have h2 : es.map (rowKey kf) = es₂.map (rowKey kf) :=
        (List.cons.injEq _ _ _ _).mp h |>.2
      rw [show (e :: es).enumFrom n = (n, e) :: es.enumFrom (n + 1) from rfl,
        show (e₂ :: es₂).enumFrom n = (n, e₂) :: es₂.enumFrom (n + 1) from rfl,
        List.foldl_cons, List.foldl_cons, h1, ih es₂ (n + 1) _ h2]

theorem buildIndex_congr {kf : List Str} {rows₁ rows₂ : List Row}
    (h : rows₁.map (rowKey kf) = rows₂.map (rowKey kf)) :
    buildIndex kf rows₁ = buildIndex kf rows₂ :=
  buildIndexFrom_congr kf rows₁ rows₂ 0 [] h

theorem idxGet_buildIndex_sound (kf : List Str) (l : List Row) :
    ∀ (k : List Str) (ref : Nat), idxGet (buildIndex kf l) k = some ref →
      ref < l.length ∧ rowKey kf (l.getD ref []) = k := by
  induction l using List.reverseRecOn with
  | nil =>
    intro k ref h
    cases h
  | append_singleton l r ih =>
    intro k ref h
    rw [buildIndex_snoc, idxGet_idxSet] at h
    by_cases hk : k = rowKey kf r
    · rw [if_pos hk] at h
      have href : ref = l.length := (Option.some.inj h).symm
      subst href
      refine ⟨by simp, ?_⟩
      rw [getD_append_length, hk]
    · rw [if_neg hk] at h
      obtain ⟨h1, h2⟩ := ih k ref h
      refine ⟨by simp; omega, ?_⟩
      rw [List.getD_append _ _ _ _ h1]
      exact h2

theorem rget_of_rgetOpt_some {r : Row} {k v : Str} (h : rgetOpt r k = some v) (d : Str) :
    rget r k d = v := by
  rw [rget, h]
  rfl

theorem rgetOpt_eq_some_of_rget {r : Row} {k v : Str} (h : rget r k [] = v)
    (hne : v ≠ []) : rgetOpt r k = some v := by
  rcases hh : rgetOpt r k with _ | w
  · rw [rget, hh] at h
    exact absurd h.symm hne
  · rw [rget, hh] at h
    rw [show (some w).getD ([] : Str) = w from rfl] at h
    rw [h]

theorem intRepr_ne_nil (i : Int) : intRepr i ≠ [] := by
  unfold intRepr
  split
  · simp
  · exact natDigits_ne_nil _

theorem rget_update_incidents (row : Row) (x d m v : Str) :
    rget (rset (rset (rset row "Incidents".data x) "Date".data d) "Meeting".data m)
      "Incidents".data v = x := by
  rw [rget_rset_ne _ (by decide), rget_rset_ne _ (by decide), rget_rset_self]

/-- A matched in-place update does not change a row's identity key, provided
`Incidents` is not a key field: the `Date`/`Meeting` values written are the
candidate's, whose normalized forms already agreed with the row's. -/
theorem rowKey_update_of_match {kf : List Str} (hInc : "Incidents".data ∉ kf)
    {row cand : Row} {x d m : Str}
    (hmatch : rowKey kf row = rowKey kf cand)
    (hd : rgetOpt cand "Date".data = some d)
    (hm : rgetOpt cand "Meeting".data = some m) :
    rowKey kf (rset (rset (rset row "Incidents".data x) "Date".data d)
      "Meeting".data m) = rowKey kf row := by
  rw [rowKey, rowKey, map_eq_map_iff_forall]
  intro f hf
  have hfInc : f ≠ "Incidents".data := fun h => hInc (by rw [← h]; exact hf)
  have hpoint : normalize_text (rget row f []) = normalize_text (rget cand f []) :=
    (map_eq_map_iff_forall kf _ _).mp hmatch f hf
  by_cases hfm : f = "Meeting".data
  · subst hfm
    rw [rget_rset_self, hpoint, rget_of_rgetOpt_some hm]
  · by_cases hfd : f = "Date".data
    · subst hfd
      rw [rget_rset_ne _ (by decide), rget_rset_self, hpoint, rget_of_rgetOpt_some hd]
    · rw [rget_rset_ne _ hfm, rget_rset_ne _ hfd, rget_rset_ne _ hfInc]

theorem incOk_updated (row : Row) (n : Int) (d m : Str) :
    incOk (rset (rset (rset row "Incidents".data (intRepr (n + 1))) "Date".data d)
      "Meeting".data m) := by
  refine ⟨n + 1, ?_⟩
  rw [rget_update_incidents, if_neg (intRepr_ne_nil (n + 1)), pyInt_intRepr]

theorem incOk_candidate (i : Item) (hs : List Str) (ownerF descF newId : Str) :
    incOk (rset (candidateOf i hs "Meeting".data ownerF descF) "ID".data newId) := by
  refine ⟨1, ?_⟩
  have h1 : rget (rset (candidateOf i hs "Meeting".data ownerF descF) "ID".data newId)
      "Incidents".data "0".data = "1".data := by
    rw [rget_rset_ne _ (by decide)]
    exact rget_of_rgetOpt_some
      (rgetOpt_eq_some_of_rget (cand_incidents i hs ownerF descF) (by decide)) _
  rw [h1, if_neg (by decide)]
  decide

/-- One merge step preserves the index invariant and the matchability of every
item, and makes the stepped item matchable. -/
theorem mergeStep_canMatch {pfx : Str} {hs kf : List Str} {ownerF descF : Str}
    {st st' : MSt} {j : Item}
    (hID : "ID".data ∉ kf) (hInc : "Incidents".data ∉ kf)
    (hidx : st.index = buildIndex kf st.store)
    (hstep : mergeStep pfx hs kf ownerF descF "Meeting".data st j = some st') :
    st'.index = buildIndex kf st'.store ∧
    (∀ i : Item, canMatch kf hs ownerF descF st.store i →
      canMatch kf hs ownerF descF st'.store i) ∧
    canMatch kf hs ownerF descF st'.store j := by
  simp only [mergeStep] at hstep
  split at hstep
  case _ ref hidx2 =>
    rcases hval : pyInt (if rget (st.store.getD ref []) "Incidents".data "0".data = []
        then "0".data else rget (st.store.getD ref []) "Incidents".data "0".data)
      with _ | nv
    · rw [hval] at hstep
      cases hstep
    rw [hval] at hstep
    rcases hdate : rgetOpt (candidateOf j hs "Meeting".data ownerF descF) "Date".data
      with _ | d
    · rw [hdate] at hstep
      simp only [Option.some_bind, Option.none_bind] at hstep
      cases hstep
    rw [hdate] at hstep
    rcases hmeet : rgetOpt (candidateOf j hs "Meeting".data ownerF descF) "Meeting".data
      with _ | m
    · rw [hmeet] at hstep
      simp only [Option.some_bind, Option.map_none'] at hstep
      cases hstep
    rw [hmeet] at hstep
    simp only [Option.some_bind, Option.map_some'] at hstep
    have hst' : st' = ⟨st.store.set ref
        (rset (rset (rset (st.store.getD ref []) "Incidents".data (intRepr (nv + 1)))
          "Date".data d) "Meeting".data m), st.index⟩ :=
      (Option.some.inj hstep).symm
    have hidxB : idxGet (buildIndex kf st.store)
        (rowKey kf (candidateOf j hs "Meeting".data ownerF descF)) = some ref := by
      rw [← hidx]
      exact hidx2
    obtain ⟨hreflen, hrowkey⟩ := idxGet_buildIndex_sound kf st.store _ ref hidxB
    have hkeypres : rowKey kf (rset (rset (rset (st.store.getD ref [])
        "Incidents".data (intRepr (nv + 1))) "Date".data d) "Meeting".data m) =
        rowKey kf (st.store.getD ref []) :=
      rowKey_update_of_match hInc hrowkey hdate hmeet
    have hmaps : (st.store.set ref (rset (rset (rset (st.store.getD ref [])
        "Incidents".data (intRepr (nv + 1))) "Date".data d) "Meeting".data m)).map
        (rowKey kf) = st.store.map (rowKey kf) :=
      map_set_of_eq _ _ _ _ hkeypres
    have hBI : buildIndex kf st'.store = buildIndex kf st.store := by
      rw [hst']
      exact buildIndex_congr hmaps
    have hlen' : st'.store.length = st.store.length := by
      rw [hst']
      exact List.length_set _ _ _
    refine ⟨?_, ?_, ?_⟩
    · rw [hBI, ← hidx, hst']
    · rintro i ⟨ref', h1, h2, h3⟩
      refine ⟨ref', by rw [hBI]; exact h1, by rw [hlen']; exact h2, ?_⟩
      by_cases hre : ref' = ref
      · subst hre
        rw [hst']
        rw [show (MSt.mk (st.store.set ref' _) st.index).store = st.store.set ref' _
          from rfl]
        rw [getD_set_self _ _ _ hreflen]
        exact incOk_updated _ nv d m
      · rw [hst']
        rw [show (MSt.mk (st.store.set ref _) st.index).store = st.store.set ref _
          from rfl]
        rw [getD_set_ne _ hre]
        exact h3
    · refine ⟨ref, by rw [hBI]; exact hidxB, by rw [hlen']; exact hreflen, ?_⟩
      rw [hst']
      rw [show (MSt.mk (st.store.set ref _) st.index).store = st.store.set ref _
        from rfl]
      rw [getD_set_self _ _ _ hreflen]
      exact incOk_updated _ nv d m
  case _ hidx2 =>
    have hst' : st' = ⟨st.store ++
        [rset (candidateOf j hs "Meeting".data ownerF descF) "ID".data
          (next_id (st.store ++ st.index.map (fun e => st.store.getD e.2 []))
            pfx true)], idxSet st.index
          (rowKey kf (candidateOf j hs "Meeting".data ownerF descF))
          st.store.length⟩ :=
      (Option.some.inj hstep).symm
    have hkeyc : rowKey kf (rset (candidateOf j hs "Meeting".data ownerF descF)
        "ID".data (next_id (st.store ++ st.index.map (fun e => st.store.getD e.2 []))
          pfx true)) = rowKey kf (candidateOf j hs "Meeting".data ownerF descF) :=
      rowKey_rset_not_mem hID _ _
    have hBI : buildIndex kf st'.store =
        idxSet (buildIndex kf st.store)
          (rowKey kf (candidateOf j hs "Meeting".data ownerF descF))
          st.store.length := by
      rw [hst']
      rw [show (MSt.mk (st.store ++ [_]) _).store = st.store ++ [_] from rfl]
      rw [buildIndex_snoc, hkeyc]
    have hlen' : st'.store.length = st.store.length + 1 := by
      rw [hst']
      simp
    refine ⟨?_, ?_, ?_⟩
    · rw [hBI, ← hidx, hst']
    · rintro i ⟨ref', h1, h2, h3⟩
      by_cases hkeq : rowKey kf (candidateOf i hs "Meeting".data ownerF descF) =
          rowKey kf (candidateOf j hs "Meeting".data ownerF descF)
      · refine ⟨st.store.length, by rw [hBI, idxGet_idxSet, if_pos hkeq],
          by omega, ?_⟩
        rw [hst']
        rw [show (MSt.mk (st.store ++ [_]) _).store = st.store ++ [_] from rfl]
        rw [getD_append_length]
        exact incOk_candidate j hs ownerF descF _
      · refine ⟨ref', by rw [hBI, idxGet_idxSet, if_neg hkeq]; exact h1,
          by omega, ?_⟩
        rw [hst']
        rw [show (MSt.mk (st.store ++ [_]) _).store = st.store ++ [_] from rfl]
        rw [List.getD_append _ _ _ _ h2]
        exact h3
    · refine ⟨st.store.length, by rw [hBI, idxGet_idxSet, if_pos rfl],
        by omega, ?_⟩
      rw [hst']
      rw [show (MSt.mk (st.store ++ [_]) _).store = st.store ++ [_] from rfl]
      rw [getD_append_length]
      exact incOk_candidate j hs ownerF descF _

/-- The merge loop leaves every processed item matchable in the final store
and preserves matchability and the index invariant throughout. -/
theorem mergeLoop_canMatch_all {pfx : Str} {hs kf : List Str} {ownerF descF : Str}
    (hID : "ID".data ∉ kf) (hInc : "Incidents".data ∉ kf) :
    ∀ (items : List Item) (st st' : MSt),
      st.index = buildIndex kf st.store →
      mergeLoop pfx hs kf ownerF descF "Meeting".data items st = some st' →
      st'.index = buildIndex kf st'.store ∧
      (∀ i : Item, canMatch kf hs ownerF descF st.store i →
        canMatch kf hs ownerF descF st'.store i) ∧
      (∀ i ∈ items, canMatch kf hs ownerF descF st'.store i) := by
  intro items
  induction items with
  | nil =>
    intro st st' hidx hm
    rw [mergeLoop] at hm
    rw [← Option.some.inj hm]
    exact ⟨hidx, fun i h => h, fun i hi => absurd hi (List.not_mem_nil i)⟩
  | cons j js ih =>
    intro st st' hidx hm
    rw [mergeLoop] at hm
    rcases hstep : mergeStep pfx hs kf ownerF descF "Meeting".data st j with _ | st₁
    · rw [hstep] at hm
      cases hm
    · rw [hstep] at hm
      obtain ⟨hidx₁, hpres₁, hj₁⟩ := mergeStep_canMatch hID hInc hidx hstep
      obtain ⟨hidx', hpres', hall'⟩ := ih st₁ st' hidx₁ hm
      refine ⟨hidx', fun i h => hpres' i (hpres₁ i h), ?_⟩
      intro i hi
      rcases List.mem_cons.mp hi with hi | hi
      · subst hi
        exact hpres' i hj₁
      · exact hall' i hi

/-- When every item in the batch is matchable, the merge loop succeeds taking
only update paths, leaving the row count unchanged. -/
theorem mergeLoop_all_match {pfx : Str} {hs kf : List Str} {ownerF descF : Str}
    (hID : "ID".data ∉ kf) (hInc : "Incidents".data ∉ kf) :
    ∀ (items : List Item) (st : MSt),
      st.index = buildIndex kf st.store →
      (∀ i ∈ items, canMatch kf hs ownerF descF st.store i) →
      ∃ st', mergeLoop pfx hs kf ownerF descF "Meeting".data items st = some st' ∧
        st'.store.length = st.store.length := by
  intro items
  induction items with
  | nil =>
    intro st _ _
    exact ⟨st, rfl, rfl⟩
  | cons j js ih =>
    intro st hidx hall
    obtain ⟨ref, h1, h2, h3⟩ := hall j (List.mem_cons_self j js)
    obtain ⟨nv, hval⟩ := h3
    obtain ⟨d, hd⟩ := Option.isSome_iff_exists.mp (cand_date_isSome j hs ownerF descF)
    obtain ⟨m, hm⟩ := Option.isSome_iff_exists.mp (cand_meeting_isSome j hs ownerF descF)
    have hstep : mergeStep pfx hs kf ownerF descF "Meeting".data st j =
        some ⟨st.store.set ref
          (rset (rset (rset (st.store.getD ref []) "Incidents".data (intRepr (nv + 1)))
            "Date".data d) "Meeting".data m), st.index⟩ := by
      have h1' : idxGet st.index
          (rowKey kf (candidateOf j hs "Meeting".data ownerF descF)) = some ref := by
        rw [hidx]
        exact h1
      simp only [mergeStep, h1', hval, hd, hm, Option.some_bind, Option.map_some']
    obtain ⟨hidx₁, hpres₁, _⟩ := mergeStep_canMatch hID hInc hidx hstep
    obtain ⟨st', hloop, hlen⟩ := ih _ hidx₁
      (fun i hi => hpres₁ i (hall i (List.mem_cons_of_mem j hi)))
    refine ⟨st', ?_, ?_⟩
    · rw [mergeLoop, hstep]
      exact hloop
    · rw [hlen]
      exact List.length_set _ _ _

end PM

/-- C1: re-merging the same batch against the result of a first merge keeps
the row count unchanged (first conjunct; identity keys may not include the
`ID` or `Incidents` columns, which the merge itself rewrites, and the default
meeting field is used). In particular a single candidate merged twice into an
initially empty row set yields exactly one row whose `Incidents` is `"2"`,
not two rows (second conjunct, concrete run). -/
theorem c1_remerge_count_idempotent :
    (∀ (rows : List PM.Row) (items : List PM.Item) (pfx : Str) (hs kf : List Str)
      (ownerF descF : Str) (r₁ : List PM.Row),
      "ID".data ∉ kf → "Incidents".data ∉ kf →
      PM.merge_items rows items pfx hs kf ownerF descF "Meeting".data = some r₁ →
      ∃ r₂, PM.merge_items r₁ items pfx hs kf ownerF descF "Meeting".data = some r₂ ∧
        r₂.length = r₁.length) ∧
    (PM.merge_items [] [PM.itemX] "R".data riskHeaders ["Description".data]
        "Owner".data "Description".data "Meeting".data =
      some [[("ID".data, "R-0001".data), ("Date".data, "2024-05-06".data),
             ("Meeting".data, "Standup".data), ("Owner".data, "Dana".data),
             ("Description".data, "x".data), ("Status".data, "open".data),
             ("Incidents".data, "1".data)]] ∧
     PM.merge_items
        [[("ID".data, "R-0001".data), ("Date".data, "2024-05-06".data),
          ("Meeting".data, "Standup".data), ("Owner".data, "Dana".data),
          ("Description".data, "x".data), ("Status".data, "open".data),
          ("Incidents".data, "1".data)]]
        [PM.itemX] "R".data riskHeaders ["Description".data]
        "Owner".data "Description".data "Meeting".data =
      some [[("ID".data, "R-0001".data), ("Date".data, "2024-05-06".data),
             ("Meeting".data, "Standup".data), ("Owner".data, "Dana".data),
             ("Description".data, "x".data), ("Status".data, "open".data),
             ("Incidents".data, "2".data)]]) := by
  constructor
  · intro rows items pfx hs kf ownerF descF r₁ hID hInc hm
    rw [PM.merge_items] at hm
    by_cases hhs : hs = []
    · rw [if_pos hhs] at hm
      refine ⟨r₁, ?_, rfl⟩
      rw [PM.merge_items, if_pos hhs]
    · rw [if_neg hhs] at hm
      rcases hloop : PM.mergeLoop pfx hs kf ownerF descF "Meeting".data items
          ⟨rows, PM.buildIndex kf rows⟩ with _ | stf
      · rw [hloop] at hm
        cases hm
      · rw [hloop] at hm
        simp only [Option.map_some'] at hm
        have hr₁ : r₁ = stf.store := (Option.some.inj hm).symm
        obtain ⟨hidxf, _, hallf⟩ := PM.mergeLoop_canMatch_all hID hInc items
          ⟨rows, PM.buildIndex kf rows⟩ stf rfl hloop
        obtain ⟨st₂, hloop₂, hlen₂⟩ := PM.mergeLoop_all_match hID hInc items
          ⟨stf.store, PM.buildIndex kf stf.store⟩ rfl hallf
        refine ⟨st₂.store, ?_, ?_⟩
        · rw [PM.merge_items, if_neg hhs, hr₁, hloop₂]
          rfl
        · rw [hr₁]
          exact hlen₂
  · constructor <;> decide

/-- C1 witness: the universally quantified part applied to the empty row set
and a single risk item. -/
theorem c1_witness :
    ∃ r₂, PM.merge_items
        [[("ID".data, "R-0001".data), ("Date".data, "2024-05-06".data),
          ("Meeting".data, "Standup".data), ("Owner".data, "Dana".data),
          ("Description".data, "x".data), ("Status".data, "open".data),
          ("Incidents".data, "1".data)]]
        [PM.itemX] "R".data riskHeaders ["Description".data]
        "Owner".data "Description".data "Meeting".data = some r₂ ∧
      r₂.length =
        ([[("ID".data, "R-0001".data), ("Date".data, "2024-05-06".data),
           ("Meeting".data, "Standup".data), ("Owner".data, "Dana".data),
           ("Description".data, "x".data), ("Status".data, "open".data),
           ("Incidents".data, "1".data)]] : List PM.Row).length :=
  (c1_remerge_count_idempotent).1 [] [PM.itemX] "R".data riskHeaders
    ["Description".data] "Owner".data "Description".data
    [[("ID".data, "R-0001".data), ("Date".data, "2024-05-06".data),
      ("Meeting".data, "Standup".data), ("Owner".data, "Dana".data),
      ("Description".data, "x".data), ("Status".data, "open".data),
      ("Incidents".data, "1".data)]]
    (by decide) (by decide) (by decide)

/-- C10 counterexample to the claim as stated: an item with the same person
and raw summary but a *different* meeting title (`"STANDUP"` vs `"Standup"`,
differing only in case) does not append a new row — the normalized folded
summaries coincide, so the merge updates the existing row in place
(overwriting its description with the new folded summary). -/
theorem c10_counterexample :
    PM.merge_development_items (PM.merge_development_items [] [PM.devItemA]
      "G".data "Area".data) [PM.devItemB] "G".data "Area".data =
    [[("ID".data, "G-0001".data), ("Person".data, "Dana".data),
      ("Area".data, "x (STANDUP, 2024-05-06)".data)]] := by decide

/-- C10 witness: with meeting titles `"Standup"` and `"Review"` the folded
summaries differ after normalization, so the second merge appends `G-0002`. -/
theorem c10_witness :
    ∃ r₁ r₂ : PM.Row,
      PM.merge_development_items [] [PM.devItemA] "G".data "Area".data = [r₁] ∧
      PM.merge_development_items [r₁]
        [⟨"grow".data, "x".data, "Dana".data,
          ⟨"Review".data, "2024-05-06".data, "Meetings.2024-05-06".data⟩, none, none⟩]
        "G".data "Area".data = [r₁, r₂] ∧
      PM.rget r₁ "ID".data [] = "G".data ++ '-' :: PM.pad4Int 1 ∧
      PM.rget r₂ "ID".data [] = "G".data ++ '-' :: PM.pad4Int 2 ∧
      PM.rget r₂ "ID".data [] ≠ PM.rget r₁ "ID".data [] :=
  c10_dev_key_includes_meeting PM.devItemA
    ⟨"grow".data, "x".data, "Dana".data,
      ⟨"Review".data, "2024-05-06".data, "Meetings.2024-05-06".data⟩, none, none⟩
    "G".data "Area".data (by decide) (by decide) (by decide) (by decide) (by decide)
    (by decide)

namespace PM

theorem padId_prefix_pad {pfx : Str} (hp : '-' ∉ pfx) (k : Int) :
    padId pfx (pfx ++ '-' :: pad4Int k) = pfx ++ '-' :: pad4Int k := by
  rw [padId, if_pos (isPrefixOf_append_cons pfx _), afterFirstDash_append hp,
    pyInt_pad4Int]

theorem padId_idem {pfx : Str} (hp : '-' ∉ pfx) (x : Str) :
    padId pfx (padId pfx x) = padId pfx x := by
  by_cases hpre : (pfx ++ ['-']).isPrefixOf x
  · rcases hval : pyInt (afterFirstDash x) with _ | k
    · have hinner : padId pfx x = x := by
        rw [padId, if_pos hpre, hval]
      rw [hinner]
      exact hinner
    · have hinner : padId pfx x = pfx ++ '-' :: pad4Int k := by
        rw [padId, if_pos hpre, hval]
      rw [hinner]
      exact padId_prefix_pad hp k
  · have hinner : padId pfx x = x := by
      rw [padId, if_neg hpre]
    rw [hinner]
    exact hinner

theorem padId_next_id (l : List Row) {pfx : Str} (hp : '-' ∉ pfx) :
    padId pfx (next_id l pfx true) = next_id l pfx true := by
  rw [next_id_eq, if_pos rfl]
  exact padId_prefix_pad hp _

theorem next_id_ne_nil (l : List Row) (pfx : Str) :
    next_id l pfx true ≠ [] := by
  rw [next_id_eq, if_pos rfl]
  intro h
  exact List.cons_ne_nil _ _ (List.append_eq_nil.mp h).2

theorem mkRow_three {k1 k2 k3 : Str} (v1 v2 v3 : Str) (h21 : k2 ≠ k1)
    (h31 : k3 ≠ k1) (h32 : k3 ≠ k2) :
    mkRow [(k1, v1), (k2, v2), (k3, v3)] = [(k1, v1), (k2, v2), (k3, v3)] := by
  have e2 : rset [(k1, v1)] k2 v2 = [(k1, v1), (k2, v2)] := by
    show (if k1 = k2 then [(k2, v2)] else (k1, v1) :: rset [] k2 v2) = _
    rw [if_neg (fun h => h21 h.symm)]
    rfl
  have e3 : rset [(k1, v1), (k2, v2)] k3 v3 = [(k1, v1), (k2, v2), (k3, v3)] := by
    show (if k1 = k3 then (k3, v3) :: [(k2, v2)]
      else (k1, v1) :: rset [(k2, v2)] k3 v3) = _
    rw [if_neg (fun h => h31 h.symm)]
    show (k1, v1) :: (if k2 = k3 then [(k3, v3)] else (k2, v2) :: rset [] k3 v3) = _
    rw [if_neg (fun h => h32 h.symm)]
    rfl
  show rset (rset (rset [] k1 v1) k2 v2) k3 v3 = _
  rw [show rset ([] : Row) k1 v1 = [(k1, v1)] from rfl, e2, e3]

theorem ndtRow_eq (descF mF dF pfx : Str) (row : Row) :
    ndtRow descF mF dF pfx row =
      mkRow [("ID".data, padId pfx (rget row "ID".data [])),
             ("Person".data, rget row "Person".data []),
             (descF, ndtSummary descF mF dF row)] := rfl

theorem ndtSummary_eq (descF mF dF : Str) (row : Row) :
    ndtSummary descF mF dF row =
      if ([rget row mF [], rget row dF []].filter (· ≠ [])) ≠ [] then
        rget row descF [] ++ " (".data ++
          List.intercalate ", ".data
            ([rget row mF [], rget row dF []].filter (· ≠ [])) ++ ")".data
      else rget row descF [] := rfl

theorem ndtRow_shape {descF : Str} (mF dF pfx : Str) (row : Row)
    (h1 : descF ≠ "ID".data) (h2 : descF ≠ "Person".data) :
    ∃ s, ndtRow descF mF dF pfx row =
      [("ID".data, padId pfx (rget row "ID".data [])),
       ("Person".data, rget row "Person".data []), (descF, s)] := by
  refine ⟨ndtSummary descF mF dF row, ?_⟩
  rw [ndtRow_eq]
  exact mkRow_three _ _ _ (by decide) h1 h2

theorem rget_cons_ne {k1 k : Str} (v1 d : Str) (rest : Row) (h : k1 ≠ k) :
    rget ((k1, v1) :: rest) k d = rget rest k d := by
  rw [rget, rgetOpt, if_neg h, rget]

theorem rget_cons_self (k1 v1 d : Str) (rest : Row) :
    rget ((k1, v1) :: rest) k1 d = v1 := by
  rw [rget, rgetOpt, if_pos rfl]
  rfl

theorem rget_nil (k d : Str) : rget [] k d = d := rfl

theorem ndtRow_fixed {descF pfx : Str} {a p s : Str}
    (h1 : descF ≠ "ID".data) (h2 : descF ≠ "Person".data)
    (h3 : descF ≠ "Meeting".data) (h4 : descF ≠ "Date".data)
    (ha : padId pfx a = a) :
    ndtRow descF "Meeting".data "Date".data pfx
      [("ID".data, a), ("Person".data, p), (descF, s)] =
    [("ID".data, a), ("Person".data, p), (descF, s)] := by
  have hgm : rget [("ID".data, a), ("Person".data, p), (descF, s)]
      "Meeting".data [] = [] := by
    rw [rget_cons_ne _ _ _ (show "ID".data ≠ "Meeting".data from by decide),
      rget_cons_ne _ _ _ (show "Person".data ≠ "Meeting".data from by decide),
      rget_cons_ne _ _ _ h3, rget_nil]
  have hgd : rget [("ID".data, a), ("Person".data, p), (descF, s)]
      "Date".data [] = [] := by
    rw [rget_cons_ne _ _ _ (show "ID".data ≠ "Date".data from by decide),
      rget_cons_ne _ _ _ (show "Person".data ≠ "Date".data from by decide),
      rget_cons_ne _ _ _ h4, rget_nil]
  have hgi : rget [("ID".data, a), ("Person".data, p), (descF, s)]
      "ID".data [] = a := rget_cons_self _ _ _ _
  have hgp : rget [("ID".data, a), ("Person".data, p), (descF, s)]
      "Person".data [] = p := by
    rw [rget_cons_ne _ _ _ (show "ID".data ≠ "Person".data from by decide),
      rget_cons_self]
  have hgs : rget [("ID".data, a), ("Person".data, p), (descF, s)] descF [] = s := by
    rw [rget_cons_ne _ _ _ (fun h => h1 h.symm),
      rget_cons_ne _ _ _ (fun h => h2 h.symm), rget_cons_self]
  have hsum : ndtSummary descF "Meeting".data "Date".data
      [("ID".data, a), ("Person".data, p), (descF, s)] = s := by
    rw [ndtSummary_eq, hgm, hgd, hgs]
    rw [show (([([] : Str), ([] : Str)].filter (· ≠ [])) : List Str) = [] from rfl]
    rw [if_neg (fun h => h rfl)]
  rw [ndtRow_eq, hgi, ha, hsum]
  exact mkRow_three _ _ _ (by decide) h1 h2

theorem backfillF_succ (pfx : Str) (n i : Nat) (l : List Row) :
    backfillF pfx (n + 1) i l =
      if h : i < l.length then
        backfillF pfx n (i + 1)
          (if rget (l.get ⟨i, h⟩) "ID".data [] = []
           then l.set i (rset (l.get ⟨i, h⟩) "ID".data (next_id l pfx true))
           else l)
      else l := rfl

theorem backfillF_all_nonempty (pfx : Str) (l : List Row)
    (h : ∀ r ∈ l, rget r "ID".data [] ≠ []) :
    ∀ fuel i, backfillF pfx fuel i l = l := by
  intro fuel
  induction fuel with
  | zero => intro i; rfl
  | succ n ih =>
    intro i
    rw [backfillF_succ]
    by_cases hi : i < l.length
    · rw [dif_pos hi, if_neg (h _ (l.get_mem i hi))]
      exact ih (i + 1)
    · rw [dif_neg hi]

theorem rset_devShape_id {descF : Str} {a p s : Str} (v : Str) :
    rset [("ID".data, a), ("Person".data, p), (descF, s)] "ID".data v =
      [("ID".data, v), ("Person".data, p), (descF, s)] := by
  show (if "ID".data = "ID".data then ("ID".data, v) :: _ else _) = _
  rw [if_pos rfl]

theorem backfillF_spec {descF pfx : Str} (hp : '-' ∉ pfx) :
    ∀ (fuel i : Nat) (l : List Row),
      (∀ r ∈ l, devShape descF pfx r) →
      (∀ j, j < i → j < l.length → rget (l.getD j []) "ID".data [] ≠ []) →
      l.length ≤ i + fuel →
      ∀ r ∈ backfillF pfx fuel i l,
        devShape descF pfx r ∧ rget r "ID".data [] ≠ [] := by
  intro fuel
  induction fuel with
  | zero =>
    intro i l hsh hprev hlen r hr
    rw [show backfillF pfx 0 i l = l from rfl] at hr
    refine ⟨hsh r hr, ?_⟩
    obtain ⟨j, hj, hget⟩ := List.mem_iff_getElem.mp hr
    have hgd : l.getD j [] = r := by
      rw [List.getD_eq_getElem?_getD, List.getElem?_eq_getElem hj, hget]
      rfl
    rw [← hgd]
    exact hprev j (by omega) hj
  | succ n ih =>
    intro i l hsh hprev hlen r hr
    rw [backfillF_succ] at hr
    by_cases hi : i < l.length
    · rw [dif_pos hi] at hr
      have hget : l.get ⟨i, hi⟩ = l.getD i [] := by
        rw [List.getD_eq_getElem?_getD, List.getElem?_eq_getElem hi]
        rfl
      by_cases hid : rget (l.get ⟨i, hi⟩) "ID".data [] = []
      · rw [if_pos hid] at hr
        obtain ⟨a, p, s, hrow, _⟩ := hsh (l.get ⟨i, hi⟩) (l.get_mem i hi)
        have hsetrow : rset (l.get ⟨i, hi⟩) "ID".data (next_id l pfx true) =
            [("ID".data, next_id l pfx true), ("Person".data, p), (descF, s)] := by
          rw [hrow]
          exact rset_devShape_id _
        refine ih (i + 1) _ ?_ ?_ ?_ r hr
        · intro r' hr'
          rcases List.mem_or_eq_of_mem_set hr' with hr' | hr'
          · exact hsh r' hr'
          · rw [hr', hsetrow]
            exact ⟨_, p, s, rfl, padId_next_id l hp⟩
        · intro j hj hjlen
          rw [List.length_set] at hjlen
          by_cases hji : j = i
          · subst hji
            rw [getD_set_self _ _ _ hjlen, hsetrow]
            rw [rget, rgetOpt, if_pos rfl]
            exact next_id_ne_nil l pfx
          · rw [getD_set_ne _ hji]
            exact hprev j (by omega) hjlen
        · rw [List.length_set]
          omega
      · rw [if_neg hid] at hr
        refine ih (i + 1) _ hsh ?_ (by omega) r hr
        intro j hj hjlen
        by_cases hji : j = i
        · subst hji
          rw [← hget]
          exact hid
        · exact hprev j (by omega) hjlen
    · rw [dif_neg hi] at hr
      refine ⟨hsh r hr, ?_⟩
      obtain ⟨j, hj, hget⟩ := List.mem_iff_getElem.mp hr
      have hgd : l.getD j [] = r := by
        rw [List.getD_eq_getElem?_getD, List.getElem?_eq_getElem hj, hget]
        rfl
      rw [← hgd]
      exact hprev j (by omega) hj

theorem normalize_development_table_eq (headers : List Str) (rows : List Row)
    (descF mF dF pfx : Str) :
    normalize_development_table headers rows descF mF dF pfx =
      (["ID".data, "Person".data, descF],
       backfillF pfx (rows.map (ndtRow descF mF dF pfx)).length 0
         (rows.map (ndtRow descF mF dF pfx))) := rfl

end PM

/-- C5: the condensed development-schema migration is idempotent. For every
headers/rows pair (with the default meeting and date fields, a description
field distinct from the fixed `ID`/`Person`/`Meeting`/`Date` columns, and a
dash-free ID prefix — true of the program's schemas), applying
`normalize_development_table` to its own output returns that output unchanged:
same target header list `[ID, Person, desc_field]`, same rows. -/
theorem c5_migration_idempotent (headers : List Str) (rows : List PM.Row)
    (descF pfx : Str) (hp : '-' ∉ pfx) (h1 : descF ≠ "ID".data)
    (h2 : descF ≠ "Person".data) (h3 : descF ≠ "Meeting".data)
    (h4 : descF ≠ "Date".data) :
    PM.normalize_development_table
      (PM.normalize_development_table headers rows descF
        "Meeting".data "Date".data pfx).1
      (PM.normalize_development_table headers rows descF
        "Meeting".data "Date".data pfx).2
      descF "Meeting".data "Date".data pfx =
    PM.normalize_development_table headers rows descF
      "Meeting".data "Date".data pfx := by
  have hmapped : ∀ r ∈ rows.map (PM.ndtRow descF "Meeting".data "Date".data pfx),
      PM.devShape descF pfx r := by
    intro r hr
    obtain ⟨row, _, hrow⟩ := List.mem_map.mp hr
    obtain ⟨s, hs⟩ := PM.ndtRow_shape "Meeting".data "Date".data pfx row h1 h2
    exact ⟨_, _, s, by rw [← hrow, hs], PM.padId_idem hp _⟩
  have hout : ∀ r ∈ PM.backfillF pfx
      (rows.map (PM.ndtRow descF "Meeting".data "Date".data pfx)).length 0
      (rows.map (PM.ndtRow descF "Meeting".data "Date".data pfx)),
      PM.devShape descF pfx r ∧ PM.rget r "ID".data [] ≠ [] :=
    PM.backfillF_spec hp _ 0 _ hmapped (fun j hj _ => absurd hj (Nat.not_lt_zero j))
      (by omega)
  have hpt : ∀ r ∈ PM.backfillF pfx
      (rows.map (PM.ndtRow descF "Meeting".data "Date".data pfx)).length 0
      (rows.map (PM.ndtRow descF "Meeting".data "Date".data pfx)),
      PM.ndtRow descF "Meeting".data "Date".data pfx r = id r := by
    intro r hr
    obtain ⟨⟨a, p, s, hrow, ha⟩, _⟩ := hout r hr
    rw [hrow, PM.ndtRow_fixed h1 h2 h3 h4 ha]
    rfl
  have hfix : (PM.backfillF pfx
      (rows.map (PM.ndtRow descF "Meeting".data "Date".data pfx)).length 0
      (rows.map (PM.ndtRow descF "Meeting".data "Date".data pfx))).map
      (PM.ndtRow descF "Meeting".data "Date".data pfx) =
      PM.backfillF pfx
        (rows.map (PM.ndtRow descF "Meeting".data "Date".data pfx)).length 0
        (rows.map (PM.ndtRow descF "Meeting".data "Date".data pfx)) := by
    rw [(PM.map_eq_map_iff_forall _ _ _).mpr hpt, List.map_id]
  have key : PM.normalize_development_table ["ID".data, "Person".data, descF]
      (PM.backfillF pfx
        (rows.map (PM.ndtRow descF "Meeting".data "Date".data pfx)).length 0
        (rows.map (PM.ndtRow descF "Meeting".data "Date".data pfx)))
      descF "Meeting".data "Date".data pfx =
      (["ID".data, "Person".data, descF],
       PM.backfillF pfx
         (rows.map (PM.ndtRow descF "Meeting".data "Date".data pfx)).length 0
         (rows.map (PM.ndtRow descF "Meeting".data "Date".data pfx))) := by
    rw [PM.normalize_development_table_eq, hfix,
      PM.backfillF_all_nonempty pfx _ (fun r hr => (hout r hr).2) _ 0]
  exact key

/-- C5 witness: a concrete legacy table migrated once and then again. -/
theorem c5_witness :
    PM.normalize_development_table
      (PM.normalize_development_table
        ["Person".data, "Date".data, "Meeting".data, "Growth".data]
        [[("Person".data, "Sam".data), ("Date".data, "2024-01-02".data),
          ("Meeting".data, "Standup".data), ("Growth".data, "listens".data)]]
        "Growth".data "Meeting".data "Date".data "G".data).1
      (PM.normalize_development_table
        ["Person".data, "Date".data, "Meeting".data, "Growth".data]
        [[("Person".data, "Sam".data), ("Date".data, "2024-01-02".data),
          ("Meeting".data, "Standup".data), ("Growth".data, "listens".data)]]
        "Growth".data "Meeting".data "Date".data "G".data).2
      "Growth".data "Meeting".data "Date".data "G".data =
    PM.normalize_development_table
      ["Person".data, "Date".data, "Meeting".data, "Growth".data]
      [[("Person".data, "Sam".data), ("Date".data, "2024-01-02".data),
        ("Meeting".data, "Standup".data), ("Growth".data, "listens".data)]]
      "Growth".data "Meeting".data "Date".data "G".data :=
  c5_migration_idempotent
    ["Person".data, "Date".data, "Meeting".data, "Growth".data]
    [[("Person".data, "Sam".data), ("Date".data, "2024-01-02".data),
      ("Meeting".data, "Standup".data), ("Growth".data, "listens".data)]]
    "Growth".data "G".data (by decide) (by decide) (by decide) (by decide)
    (by decide)

/-- C8 (amended): migrating a person-grouped legacy CSV with header
`[Person, Date, Behavior, Summary, Meeting]` rewrites it to the header list
`[Person, Date, Meeting, Kind, Behavior, Summary]` (no `ID` column), splitting
each combined `"kind: behavior"` value on the first colon: the Sam row yields
`Kind="Student"` and `Behavior="needs more practice"`; the behavior vocabulary
maps student/teacher/community/company to their capitalized forms and passes
anything else through trimmed. -/
theorem c8_legacy_csv_migration :
    PM.migratePersonCsv
      [PM.legacyHeaders,
       ["Sam".data, "2024-01-02".data, "student: needs more practice".data,
        "Pairs well".data, "Standup".data]] =
      some [PM.expectedHeaders,
            ["Sam".data, "2024-01-02".data, "Standup".data, "Student".data,
             "needs more practice".data, "Pairs well".data]] ∧
    PM.expectedHeaders = ["Person".data, "Date".data, "Meeting".data,
      "Kind".data, "Behavior".data, "Summary".data] ∧
    PM.split_legacy_behavior "student: needs more practice".data =
      ("Student".data, "needs more practice".data) ∧
    PM.normalize_behavior "student".data = "Student".data ∧
    PM.normalize_behavior "teacher".data = "Teacher".data ∧
    PM.normalize_behavior "community".data = "Community".data ∧
    PM.normalize_behavior "company".data = "Company".data ∧
    PM.normalize_behavior "  shares context  ".data = "shares context".data := by
  refine ⟨by decide, by decide, by decide, by decide, by decide, by decide,
    by decide, by decide⟩

/-- C8 counterexample to the claim as stated: the migrated header list is the
six-column `[Person, Date, Meeting, Kind, Behavior, Summary]` — the rewritten
file's first row is `expected_headers`, which differs from the claimed
seven-column `[ID, Person, Date, Meeting, Kind, Behavior, Summary]`. -/
theorem c8_counterexample :
    (PM.migratePersonCsv
      [PM.legacyHeaders,
       ["Sam".data, "2024-01-02".data, "student: needs more practice".data,
        "Pairs well".data, "Standup".data]]).map (fun f => f.headD []) =
      some PM.expectedHeaders ∧
    PM.expectedHeaders ≠ ["ID".data, "Person".data, "Date".data,
      "Meeting".data, "Kind".data, "Behavior".data, "Summary".data] := by
  refine ⟨by decide, by decide⟩

namespace PM

theorem loadLogLine_eq (st : List Str × List Row) (line : Str) :
    loadLogLine st line =
      if ("|".data).isPrefixOf line then
        if st.1 = [] then (parseCells line, st.2)
        else if parseCells line ≠ [] ∧ (parseCells line).all (· = "---".data) then
          st
        else if (parseCells line).length ≠ st.1.length then st
        else (st.1, st.2 ++ [mkRow (st.1.zip (parseCells line))])
      else st := rfl

theorem splitLinesGo_cons (pcr : Bool) (cur : Str) (c : Char) (rest : Str) :
    splitLinesGo pcr cur (c :: rest) =
      if pcr && (c == '\n') then splitLinesGo false [] rest
      else if isLineBreak c then cur.reverse :: splitLinesGo (c == '\r') [] rest
      else splitLinesGo false (c :: cur) rest := rfl

theorem splitLinesGo_nil (pcr : Bool) (cur : Str) :
    splitLinesGo pcr cur [] = if cur = [] then [] else [cur.reverse] := rfl

theorem splitLinesGo_line :
    ∀ x : Str, (∀ ch ∈ x, isLineBreak ch = false) →
      ∀ cur rest : Str,
        splitLinesGo false cur (x ++ '\n' :: rest) =
          (cur.reverse ++ x) :: splitLinesGo false [] rest := by
  intro x
  induction x with
  | nil =>
    intro _ cur rest
    rw [List.nil_append, splitLinesGo_cons, Bool.false_and,
      if_neg (by decide : ¬ false = true),
      if_pos (by decide : isLineBreak '\n' = true),
      show ('\n' == '\r') = false from rfl, List.append_nil]
  | cons c x ih =>
    intro hfree cur rest
    have hc : isLineBreak c = false := hfree c (List.mem_cons_self c x)
    rw [List.cons_append, splitLinesGo_cons, Bool.false_and,
      if_neg (by decide : ¬ false = true), hc,
      if_neg (by decide : ¬ false = true),
      ih (fun ch h => hfree ch (List.mem_cons_of_mem c h)) (c :: cur) rest,
      List.reverse_cons, List.append_assoc, List.singleton_append]

theorem splitLines_intercalate :
    ∀ lines : List Str, lines ≠ [] →
      (∀ l ∈ lines, ∀ ch ∈ l, isLineBreak ch = false) →
      splitLines (List.intercalate "\n".data lines ++ "\n".data) = lines := by
  intro lines
  induction lines with
  | nil => intro h; exact absurd rfl h
  | cons x tl ih =>
    intro _ hfree
    cases tl with
    | nil =>
      rw [intercalate_singleton, splitLines,
        show ("\n".data : Str) = ['\n'] from rfl,
        splitLinesGo_line x (hfree x (List.mem_cons_self x [])) [] [],
        splitLinesGo_nil, if_pos rfl]
      simp only [List.reverse_nil, List.nil_append]
    | cons y tl2 =>
      rw [intercalate_cons_ne_nil _ _ (by simp), splitLines,
        show ("\n".data : Str) = ['\n'] from rfl, List.append_assoc,
        List.append_assoc, List.singleton_append,
        splitLinesGo_line x (hfree x (List.mem_cons_self x (y :: tl2))) [] _]
      have := ih (by simp) (fun l hl => hfree l (List.mem_cons_of_mem x hl))
      rw [splitLines, show ("\n".data : Str) = ['\n'] from rfl] at this
      rw [this]
      simp only [List.reverse_nil, List.nil_append]

theorem dropWhile_cons_false {p : Char → Bool} {c : Char} (t : Str)
    (hc : p c = false) : List.dropWhile p (c :: t) = c :: t := by
  rw [List.dropWhile_cons, hc, if_neg (by decide : ¬ false = true)]

theorem dropWhile_cons_true {p : Char → Bool} {c : Char} (t : Str)
    (hc : p c = true) : List.dropWhile p (c :: t) = List.dropWhile p t := by
  rw [List.dropWhile_cons, if_pos hc]

theorem dropWhile_append_of_nil {p : Char → Bool} :
    ∀ {a : Str}, a.dropWhile p = [] → ∀ b, (a ++ b).dropWhile p = b.dropWhile p := by
  intro a
  induction a with
  | nil => intro _ b; rfl
  | cons c cs ih =>
    intro h b
    rw [List.dropWhile_cons] at h
    by_cases hc : p c = true
    · rw [if_pos hc] at h
      rw [List.cons_append, List.dropWhile_cons, if_pos hc]
      exact ih h b
    · rw [if_neg hc] at h
      cases h

/-- `str.strip()` returns its input when the first and last characters are
non-whitespace. -/
theorem strip_ends {c1 c2 : Char} (m : Str) (h1 : isWs c1 = false)
    (h2 : isWs c2 = false) : pyStrip ((c1 :: m) ++ [c2]) = (c1 :: m) ++ [c2] := by
  rw [pyStrip, List.cons_append, dropWhile_cons_false _ h1,
    show (c1 :: (m ++ [c2])).reverse = c2 :: (m.reverse ++ [c1]) from by simp,
    dropWhile_cons_false _ h2,
    show (c2 :: (m.reverse ++ [c1])).reverse = c1 :: (m ++ [c2]) from by simp]

theorem stripPipes_line (M : Str) :
    stripPipes (('|' :: ((' ' :: M) ++ [' '])) ++ ['|']) = (' ' :: M) ++ [' '] := by
  rw [stripPipes, List.cons_append, dropWhile_cons_true _ (by decide),
    List.cons_append, List.cons_append, dropWhile_cons_false _ (by decide),
    show (' ' :: ((M ++ [' ']) ++ ['|'])).reverse =
      '|' :: (' ' :: (M.reverse ++ [' '])) from by simp,
    dropWhile_cons_true _ (by decide), dropWhile_cons_false _ (by decide),
    show (' ' :: (M.reverse ++ [' '])).reverse = ' ' :: (M ++ [' ']) from by simp]

theorem pyStrip_append_space (x : Str) : pyStrip (x ++ [' ']) = pyStrip x := by
  rcases hd : x.dropWhile isWs with _ | ⟨c, t⟩
  · rw [pyStrip, pyStrip, hd, dropWhile_append_of_nil hd,
      show List.dropWhile isWs [' '] = [] from by decide]
  · rw [pyStrip, pyStrip, hd, dropWhile_append_of_ne_nil [' '] (by rw [hd]; simp),
      hd, show ((c :: t) ++ [' ']).reverse = ' ' :: (c :: t).reverse from by simp,
      dropWhile_cons_true _ (by decide)]

theorem pyStrip_pad (x : Str) : pyStrip ((' ' :: x) ++ [' ']) = pyStrip x := by
  rw [List.cons_append, pyStrip_cons_ws (by decide) (x ++ [' ']),
    pyStrip_append_space]

theorem splitOnPipe_nil : splitOnPipe [] = [[]] := rfl

theorem splitOnPipe_cons (c : Char) (t : Str) :
    splitOnPipe (c :: t) =
      if c = '|' then [] :: splitOnPipe t
      else (c :: (splitOnPipe t).headD []) :: (splitOnPipe t).tail := rfl

theorem splitOnPipe_free : ∀ x : Str, '|' ∉ x → splitOnPipe x = [x] := by
  intro x
  induction x with
  | nil => intro _; rfl
  | cons c cs ih =>
    intro h
    rw [splitOnPipe_cons,
      if_neg (fun hc => h (List.mem_cons.mpr (Or.inl hc.symm))),
      ih (fun hm => h (List.mem_cons_of_mem c hm))]
    rfl

theorem splitOnPipe_append_free :
    ∀ x : Str, '|' ∉ x → ∀ t, splitOnPipe (x ++ '|' :: t) = x :: splitOnPipe t := by
  intro x
  induction x with
  | nil =>
    intro _ t
    rw [List.nil_append, splitOnPipe_cons, if_pos rfl]
  | cons c cs ih =>
    intro h t
    rw [List.cons_append, splitOnPipe_cons,
      if_neg (fun hc => h (List.mem_cons.mpr (Or.inl hc.symm))),
      ih (fun hm => h (List.mem_cons_of_mem c hm)) t]
    rfl

theorem splitOnPipe_intercalate :
    ∀ segs : List Str, segs ≠ [] → (∀ s ∈ segs, '|' ∉ s) →
      splitOnPipe (List.intercalate ['|'] segs) = segs := by
  intro segs
  induction segs with
  | nil => intro h; exact absurd rfl h
  | cons s tl ih =>
    intro _ hfree
    cases tl with
    | nil =>
      rw [intercalate_singleton]
      exact splitOnPipe_free s (hfree s (List.mem_cons_self s []))
    | cons s2 tl2 =>
      rw [intercalate_cons_ne_nil _ _ (by simp), List.append_assoc,
        List.singleton_append,
        splitOnPipe_append_free s (hfree s (List.mem_cons_self s _)) _,
        ih (by simp) (fun x hx => hfree x (List.mem_cons_of_mem s hx))]

theorem stripPipes_wrap {c1 c2 : Char} (m : Str) (h1 : c1 ≠ '|') (h2 : c2 ≠ '|') :
    stripPipes (('|' :: ((c1 :: m) ++ [c2])) ++ ['|']) = (c1 :: m) ++ [c2] := by
  rw [stripPipes, List.cons_append, dropWhile_cons_true _ (by decide),
    List.cons_append, List.cons_append, dropWhile_cons_false _ (decide_eq_false h1),
    show (c1 :: ((m ++ [c2]) ++ ['|'])).reverse =
      '|' :: (c2 :: (m.reverse ++ [c1])) from by simp,
    dropWhile_cons_true _ (by decide), dropWhile_cons_false _ (decide_eq_false h2),
    show (c2 :: (m.reverse ++ [c1])).reverse = c1 :: (m ++ [c2]) from by simp]

theorem pipe_isPrefixOf (r : Str) : ("|".data).isPrefixOf ('|' :: r) = true := by
  rw [show ("|".data : Str) = ['|'] from rfl, List.isPrefixOf, List.isPrefixOf]
  simp

theorem dashes_shape :
    ∀ m : Nat, ∃ mid : Str,
      List.intercalate ['|'] (List.replicate (m + 1) "---".data) =
        ('-' :: mid) ++ ['-'] := by
  intro m
  induction m with
  | zero => exact ⟨['-'], by decide⟩
  | succ k ih =>
    obtain ⟨mid, hmid⟩ := ih
    refine ⟨"--|".data ++ ('-' :: mid), ?_⟩
    rw [List.replicate_succ, intercalate_cons_ne_nil _ _ (by simp), hmid]
    simp

theorem body_pad :
    ∀ cells : List Str, cells ≠ [] →
      (' ' :: List.intercalate " | ".data cells) ++ [' '] =
        List.intercalate ['|'] (cells.map (fun c => (' ' :: c) ++ [' '])) := by
  intro cells
  induction cells with
  | nil => intro h; exact absurd rfl h
  | cons c tl ih =>
    intro _
    cases tl with
    | nil =>
      rw [intercalate_singleton, List.map_cons, List.map_nil, intercalate_singleton]
    | cons c2 tl2 =>
      rw [intercalate_cons_ne_nil " | ".data c (by simp), List.map_cons,
        intercalate_cons_ne_nil ['|'] ((' ' :: c) ++ [' ']) (by simp),
        ← ih (by simp)]
      simp

theorem parseCells_line (cells : List Str) (hne : cells ≠ [])
    (hpipe : ∀ c ∈ cells, '|' ∉ c) (hstrip : ∀ c ∈ cells, pyStrip c = c) :
    parseCells ("| ".data ++ List.intercalate " | ".data cells ++ " |".data) =
      cells := by
  have hshape : "| ".data ++ List.intercalate " | ".data cells ++ " |".data =
      ('|' :: ((' ' :: List.intercalate " | ".data cells) ++ [' '])) ++ ['|'] := by
    simp
  have hpadfree : ∀ s ∈ cells.map (fun c => (' ' :: c) ++ [' ']), '|' ∉ s := by
    intro s hs hmem
    obtain ⟨c, hc, hrfl⟩ := List.mem_map.mp hs
    rw [← hrfl] at hmem
    rcases List.mem_append.mp hmem with hm | hm
    · rcases List.mem_cons.mp hm with hm | hm
      · cases hm
      · exact hpipe c hc hm
    · rcases List.mem_cons.mp hm with hm | hm
      · cases hm
      · exact absurd hm (List.not_mem_nil '|')
  rw [parseCells, hshape,
    strip_ends _ (by decide) (by decide), stripPipes_line,
    show (' ' :: List.intercalate " | ".data cells) ++ [' '] =
      (' ' :: (List.intercalate " | ".data cells)) ++ [' '] from rfl,
    body_pad cells hne,
    splitOnPipe_intercalate _ (by simp [hne]) hpadfree, List.map_map]
  rw [(map_eq_map_iff_forall _ _ id).mpr ?hpt, List.map_id]
  case hpt =>
    intro c hc
    show pyStrip ((' ' :: c) ++ [' ']) = c
    rw [pyStrip_pad, hstrip c hc]

theorem parseCells_sep (n : Nat) :
    parseCells ("|".data ++
        List.intercalate "|".data (List.replicate (n + 1) "---".data) ++
        "|".data) = List.replicate (n + 1) "---".data := by
  obtain ⟨mid, hmid⟩ := dashes_shape n
  have hsep : ("|".data : Str) = ['|'] := rfl
  have hshape : "|".data ++
      List.intercalate "|".data (List.replicate (n + 1) "---".data) ++ "|".data =
      ('|' :: (('-' :: mid) ++ ['-'])) ++ ['|'] := by
    rw [hsep, hmid]
    simp
  have hdashfree : ∀ s ∈ List.replicate (n + 1) ("---".data : Str), '|' ∉ s := by
    intro s hs
    rw [List.eq_of_mem_replicate hs]
    decide
  rw [parseCells, hshape, strip_ends _ (by decide) (by decide),
    stripPipes_wrap _ (by decide) (by decide), ← hmid,
    splitOnPipe_intercalate _ (by simp) hdashfree, List.map_replicate,
    show pyStrip "---".data = "---".data from by decide]

theorem rset_cons (e : Str × Str) (rest : Row) (k v : Str) :
    rset (e :: rest) k v =
      if e.1 = k then (k, v) :: rest else e :: rset rest k v := rfl

theorem rset_append_of_not_mem :
    ∀ (l : Row) (k v : Str), k ∉ l.map Prod.fst → rset l k v = l ++ [(k, v)] := by
  intro l
  induction l with
  | nil => intro k v _; rfl
  | cons e t ih =>
    intro k v h
    have h1 : ¬ e.1 = k := fun he => h (by
      rw [List.map_cons]
      exact List.mem_cons.mpr (Or.inl he.symm))
    rw [rset_cons, if_neg h1,
      ih k v (fun hm => h (by rw [List.map_cons]; exact List.mem_cons_of_mem _ hm))]
    rfl

theorem mkRow_of_distinct :
    ∀ l : List (Str × Str), (l.map Prod.fst).Pairwise (· ≠ ·) → mkRow l = l := by
  intro l
  induction l using List.reverseRecOn with
  | nil => intro _; rfl
  | append_singleton l kv ih =>
    intro h
    obtain ⟨k, v⟩ := kv
    rw [List.map_append] at h
    have hp := List.pairwise_append.mp h
    have hnot : k ∉ l.map Prod.fst := fun hk =>
      (hp.2.2 k hk k (List.mem_singleton_self k)) rfl
    rw [mkRow_append, ih hp.1, rset_append_of_not_mem _ _ _ hnot]

theorem map_rget_zip :
    ∀ (hs vs : List Str), hs.length = vs.length → hs.Pairwise (· ≠ ·) →
      hs.map (fun h => rget (hs.zip vs) h []) = vs := by
  intro hs
  induction hs with
  | nil =>
    intro vs hlen _
    cases vs with
    | nil => rfl
    | cons v vs' => cases hlen
  | cons h hs' ih =>
    intro vs hlen hpair
    cases vs with
    | nil => cases hlen
    | cons v vs' =>
      rw [List.zip_cons_cons, List.map_cons, rget_cons_self]
      have hstep : hs'.map (fun x => rget ((h, v) :: hs'.zip vs') x []) =
          hs'.map (fun x => rget (hs'.zip vs') x []) := by
        refine (map_eq_map_iff_forall _ _ _).mpr ?_
        intro x hx
        exact rget_cons_ne _ _ _ (List.rel_of_pairwise_cons hpair hx)
      rw [hstep, ih vs' (Nat.succ_injective hlen) (List.Pairwise.of_cons hpair)]

theorem mem_intercalate {c : Char} (s : Str) :
    ∀ L : List Str, c ∈ List.intercalate s L → c ∈ s ∨ ∃ l ∈ L, c ∈ l := by
  intro L
  induction L with
  | nil =>
    intro h
    rw [show List.intercalate s [] = [] from rfl] at h
    exact absurd h (List.not_mem_nil c)
  | cons a tl ih =>
    intro h
    cases tl with
    | nil =>
      rw [intercalate_singleton] at h
      exact Or.inr ⟨a, List.mem_cons_self a [], h⟩
    | cons b tl2 =>
      rw [intercalate_cons_ne_nil _ _ (by simp)] at h
      rcases List.mem_append.mp h with h1 | h1
      · rcases List.mem_append.mp h1 with h2 | h2
        · exact Or.inr ⟨a, List.mem_cons_self a _, h2⟩
        · exact Or.inl h2
      · rcases ih h1 with h2 | ⟨l, hl, hc⟩
        · exact Or.inl h2
        · exact Or.inr ⟨l, List.mem_cons_of_mem a hl, hc⟩

theorem line_chars {ch : Char} (cells : List Str) :
    ch ∈ "| ".data ++ List.intercalate " | ".data cells ++ " |".data →
    ch = '|' ∨ ch = ' ' ∨ ∃ c ∈ cells, ch ∈ c := by
  intro h
  rcases List.mem_append.mp h with h1 | h1
  · rcases List.mem_append.mp h1 with h2 | h2
    · rcases List.mem_cons.mp h2 with h3 | h3
      · exact Or.inl h3
      · rcases List.mem_cons.mp h3 with h4 | h4
        · exact Or.inr (Or.inl h4)
        · exact absurd h4 (List.not_mem_nil ch)
    · rcases mem_intercalate _ _ h2 with h3 | ⟨l, hl, hc⟩
      · rcases List.mem_cons.mp h3 with h4 | h4
        · exact Or.inr (Or.inl h4)
        · rcases List.mem_cons.mp h4 with h5 | h5
          · exact Or.inl h5
          · rcases List.mem_cons.mp h5 with h6 | h6
            · exact Or.inr (Or.inl h6)
            · exact absurd h6 (List.not_mem_nil ch)
      · exact Or.inr (Or.inr ⟨l, hl, hc⟩)
  · rcases List.mem_cons.mp h1 with h2 | h2
    · exact Or.inr (Or.inl h2)
    · rcases List.mem_cons.mp h2 with h3 | h3
      · exact Or.inl h3
      · exact absurd h3 (List.not_mem_nil ch)

theorem sep_chars {ch : Char} (n : Nat) :
    ch ∈ "|".data ++
      List.intercalate "|".data (List.replicate n "---".data) ++ "|".data →
    ch = '|' ∨ ch = '-' := by
  intro h
  rcases List.mem_append.mp h with h1 | h1
  · rcases List.mem_append.mp h1 with h2 | h2
    · rcases List.mem_cons.mp h2 with h3 | h3
      · exact Or.inl h3
      · exact absurd h3 (List.not_mem_nil ch)
    · rcases mem_intercalate _ _ h2 with h3 | ⟨l, hl, hc⟩
      · rcases List.mem_cons.mp h3 with h4 | h4
        · exact Or.inl h4
        · exact absurd h4 (List.not_mem_nil ch)
      · rw [List.eq_of_mem_replicate hl] at hc
        rcases List.mem_cons.mp hc with h4 | h4
        · exact Or.inr h4
        · rcases List.mem_cons.mp h4 with h5 | h5
          · exact Or.inr h5
          · rcases List.mem_cons.mp h5 with h6 | h6
            · exact Or.inr h6
            · exact absurd h6 (List.not_mem_nil ch)
  · rcases List.mem_cons.mp h1 with h2 | h2
    · exact Or.inl h2
    · exact absurd h2 (List.not_mem_nil ch)

theorem containsSub_eq_false {hay : Str} (h : '<' ∉ hay) :
    containsSub "<table".data hay = false := by
  rw [containsSub, Bool.eq_false_iff]
  intro htrue
  obtain ⟨t, ht, hpre⟩ := List.any_eq_true.mp htrue
  obtain ⟨u, hu⟩ := List.isPrefixOf_iff_prefix.mp hpre
  have hlt : '<' ∈ t := by
    rw [← hu]
    exact List.mem_append.mpr (Or.inl (by decide))
  exact h (((List.mem_tails t hay).mp ht).subset hlt)

theorem load_log_table_from_lines_eq (lines : List Str) :
    load_log_table_from_lines lines =
      if containsSub "<table".data (List.intercalate "\n".data lines) then
        load_html_table (List.intercalate "\n".data lines)
      else lines.foldl loadLogLine ([], []) := rfl

theorem write_log_eq (headers : List Str) (rows : List Row) :
    write_log headers rows =
      List.intercalate "\n".data
        (("| ".data ++ List.intercalate " | ".data headers ++ " |".data) ::
         ("|".data ++
            List.intercalate "|".data
              (List.replicate headers.length "---".data) ++ "|".data) ::
         rows.map (fun r =>
           "| ".data ++
             List.intercalate " | ".data (headers.map (fun h => rget r h [])) ++
             " |".data)) ++ "\n".data := rfl

theorem loadLogLine_pair (hdrs : List Str) (acc : List Row) (line : Str) :
    loadLogLine (hdrs, acc) line =
      if ("|".data).isPrefixOf line then
        if hdrs = [] then (parseCells line, acc)
        else if parseCells line ≠ [] ∧ (parseCells line).all (· = "---".data) then
          (hdrs, acc)
        else if (parseCells line).length ≠ hdrs.length then (hdrs, acc)
        else (hdrs, acc ++ [mkRow (hdrs.zip (parseCells line))])
      else (hdrs, acc) := rfl

theorem loadLogLine_header (headers : List Str) (hne : headers ≠ [])
    (hpipe : ∀ h ∈ headers, '|' ∉ h) (hstrip : ∀ h ∈ headers, pyStrip h = h) :
    loadLogLine ([], [])
      ("| ".data ++ List.intercalate " | ".data headers ++ " |".data) =
    (headers, []) := by
  have hpre : ("|".data).isPrefixOf
      ("| ".data ++ List.intercalate " | ".data headers ++ " |".data) = true := by
    rw [show ("| ".data ++ List.intercalate " | ".data headers ++ " |".data : Str) =
      '|' :: (' ' :: (List.intercalate " | ".data headers ++ " |".data))
      from by simp]
    exact pipe_isPrefixOf _
  rw [loadLogLine_pair, if_pos hpre, if_pos rfl,
    parseCells_line headers hne hpipe hstrip]

theorem loadLogLine_sep (headers : List Str) (n₀ : Nat) (hne : headers ≠ []) :
    loadLogLine (headers, ([] : List Row))
      ("|".data ++
        List.intercalate "|".data (List.replicate (n₀ + 1) "---".data) ++
        "|".data) = (headers, []) := by
  have hpre : ("|".data).isPrefixOf
      ("|".data ++
        List.intercalate "|".data (List.replicate (n₀ + 1) "---".data) ++
        "|".data) = true := by
    rw [show ("|".data ++
        List.intercalate "|".data (List.replicate (n₀ + 1) "---".data) ++
        "|".data : Str) =
      '|' :: (List.intercalate "|".data (List.replicate (n₀ + 1) "---".data) ++
        "|".data) from by simp]
    exact pipe_isPrefixOf _
  rw [loadLogLine_pair, if_pos hpre, parseCells_sep n₀, if_neg hne,
    if_pos ⟨by simp, List.all_eq_true.mpr (fun x hx => by
      rw [List.eq_of_mem_replicate hx]; decide)⟩]

theorem foldl_rows (headers : List Str) (hne : headers ≠ [])
    (hdist : headers.Pairwise (· ≠ ·)) :
    ∀ (vls : List (List Str)) (acc : List Row),
      (∀ vs ∈ vls, vs.length = headers.length ∧
        (∀ v ∈ vs, '|' ∉ v ∧ pyStrip v = v) ∧ ∃ v ∈ vs, v ≠ "---".data) →
      List.foldl loadLogLine (headers, acc)
        (vls.map (fun vs =>
          "| ".data ++ List.intercalate " | ".data vs ++ " |".data)) =
      (headers, acc ++ vls.map (fun vs => headers.zip vs)) := by
  intro vls
  induction vls with
  | nil => intro acc _; simp
  | cons vs vls' ih =>
    intro acc hv
    obtain ⟨hlen, hgood, hex⟩ := hv vs (List.mem_cons_self vs vls')
    have hvne : vs ≠ [] := by
      intro hnil
      rw [hnil] at hlen
      exact hne (List.length_eq_zero.mp hlen.symm)
    have hcells : parseCells
        ("| ".data ++ List.intercalate " | ".data vs ++ " |".data) = vs :=
      parseCells_line vs hvne (fun c hc => (hgood c hc).1)
        (fun c hc => (hgood c hc).2)
    have hpre : ("|".data).isPrefixOf
        ("| ".data ++ List.intercalate " | ".data vs ++ " |".data) = true := by
      rw [show ("| ".data ++ List.intercalate " | ".data vs ++ " |".data : Str) =
        '|' :: (' ' :: (List.intercalate " | ".data vs ++ " |".data))
        from by simp]
      exact pipe_isPrefixOf _
    have hdash : ¬(vs ≠ [] ∧ vs.all (· = "---".data) = true) := by
      rintro ⟨_, hall⟩
      obtain ⟨v, hvmem, hvne'⟩ := hex
      exact hvne' (of_decide_eq_true (List.all_eq_true.mp hall v hvmem))
    have hlen2 : ¬ vs.length ≠ headers.length := fun hcon => hcon hlen
    have hfst : (headers.zip vs).map Prod.fst = headers :=
      List.map_fst_zip headers vs (le_of_eq hlen.symm)
    have hmk : mkRow (headers.zip vs) = headers.zip vs :=
      mkRow_of_distinct _ (by rw [hfst]; exact hdist)
    have hstep : loadLogLine (headers, acc)
        ("| ".data ++ List.intercalate " | ".data vs ++ " |".data) =
        (headers, acc ++ [headers.zip vs]) := by
      rw [loadLogLine_pair, if_pos hpre, hcells, if_neg hne, if_neg hdash,
        if_neg hlen2, hmk]
    rw [List.map_cons, List.foldl_cons, hstep,
      ih (acc ++ [headers.zip vs])
        (fun v hv' => hv v (List.mem_cons_of_mem _ hv')), List.map_cons]
    simp

end PM

/-- C4 (amended): for a non-empty, pairwise-distinct headers list and rows
given as one cell list per row (each the headers' length), where every header
and cell is free of pipe characters, of `'<'`, and of line-break characters
and is stable under `str.strip()`, and every row has some cell other than
`"---"`, writing with `write_log` and re-parsing the written text with
`load_log_table_from_lines` returns exactly the original headers (in order)
and the original rows (same values, same order). -/
theorem c4_pipe_roundtrip (headers : List Str) (vals : List (List Str))
    (hne : headers ≠ []) (hdist : headers.Pairwise (· ≠ ·))
    (hh : ∀ h ∈ headers, PM.goodCell h)
    (hv : ∀ vs ∈ vals, vs.length = headers.length ∧
      (∀ v ∈ vs, PM.goodCell v) ∧ ∃ v ∈ vs, v ≠ "---".data) :
    PM.load_log_table_from_lines (PM.splitLines
      (PM.write_log headers (vals.map (fun vs => headers.zip vs)))) =
    (headers, vals.map (fun vs => headers.zip vs)) := by
  obtain ⟨n₀, hn₀⟩ : ∃ n₀, headers.length = n₀ + 1 := by
    cases headers with
    | nil => exact absurd rfl hne
    | cons h t => exact ⟨t.length, by simp⟩
  have hrowlines : (vals.map (fun vs => headers.zip vs)).map (fun r =>
      "| ".data ++
        List.intercalate " | ".data (headers.map (fun h => PM.rget r h [])) ++
        " |".data) =
      vals.map (fun vs =>
        "| ".data ++ List.intercalate " | ".data vs ++ " |".data) := by
    rw [List.map_map]
    refine (PM.map_eq_map_iff_forall _ _ _).mpr ?_
    intro vs hvs
    show "| ".data ++ List.intercalate " | ".data
      (headers.map (fun h => PM.rget (headers.zip vs) h [])) ++ " |".data = _
    rw [PM.map_rget_zip headers vs ((hv vs hvs).1).symm hdist]
  have hwl : PM.write_log headers (vals.map (fun vs => headers.zip vs)) =
      List.intercalate "\n".data
        (("| ".data ++ List.intercalate " | ".data headers ++ " |".data) ::
         ("|".data ++
            List.intercalate "|".data
              (List.replicate headers.length "---".data) ++ "|".data) ::
         vals.map (fun vs =>
           "| ".data ++ List.intercalate " | ".data vs ++ " |".data)) ++
        "\n".data := by
    rw [PM.write_log_eq, hrowlines]
  have hbreakfree : ∀ l ∈
      (("| ".data ++ List.intercalate " | ".data headers ++ " |".data) ::
       ("|".data ++
          List.intercalate "|".data
            (List.replicate headers.length "---".data) ++ "|".data) ::
       vals.map (fun vs =>
         "| ".data ++ List.intercalate " | ".data vs ++ " |".data)),
      ∀ ch ∈ l, PM.isLineBreak ch = false := by
    intro l hl ch hch
    rcases List.mem_cons.mp hl with hl1 | hl1
    · rw [hl1] at hch
      rcases PM.line_chars headers hch with hc | hc | ⟨c, hcm, hcc⟩
      · rw [hc]; decide
      · rw [hc]; decide
      · exact (hh c hcm).2.2.1 ch hcc
    · rcases List.mem_cons.mp hl1 with hl2 | hl2
      · rw [hl2] at hch
        rcases PM.sep_chars headers.length hch with hc | hc
        · rw [hc]; decide
        · rw [hc]; decide
      · obtain ⟨vs, hvs, hrfl⟩ := List.mem_map.mp hl2
        rw [← hrfl] at hch
        rcases PM.line_chars vs hch with hc | hc | ⟨c, hcm, hcc⟩
        · rw [hc]; decide
        · rw [hc]; decide
        · exact ((hv vs hvs).2.1 c hcm).2.2.1 ch hcc
  rw [hwl, PM.splitLines_intercalate _ (by simp) hbreakfree,
    PM.load_log_table_from_lines_eq]
  have hnolt : '<' ∉ List.intercalate "\n".data
      (("| ".data ++ List.intercalate " | ".data headers ++ " |".data) ::
       ("|".data ++
          List.intercalate "|".data
            (List.replicate headers.length "---".data) ++ "|".data) ::
       vals.map (fun vs =>
         "| ".data ++ List.intercalate " | ".data vs ++ " |".data)) := by
    intro hmem
    rcases PM.mem_intercalate _ _ hmem with hc | ⟨l, hl, hcc⟩
    · rcases List.mem_cons.mp hc with h1 | h1
      · cases h1
      · exact absurd h1 (List.not_mem_nil '<')
    · rcases List.mem_cons.mp hl with hl1 | hl1
      · rw [hl1] at hcc
        rcases PM.line_chars headers hcc with h1 | h1 | ⟨c, hcm, hc2⟩
        · cases h1
        · cases h1
        · exact (hh c hcm).2.1 hc2
      · rcases List.mem_cons.mp hl1 with hl2 | hl2
        · rw [hl2] at hcc
          rcases PM.sep_chars headers.length hcc with h1 | h1
          · cases h1
          · cases h1
        · obtain ⟨vs, hvs, hrfl⟩ := List.mem_map.mp hl2
          rw [← hrfl] at hcc
          rcases PM.line_chars vs hcc with h1 | h1 | ⟨c, hcm, hc2⟩
          · cases h1
          · cases h1
          · exact ((hv vs hvs).2.1 c hcm).2.1 hc2
  rw [PM.containsSub_eq_false hnolt, if_neg (by decide : ¬ false = true),
    List.foldl_cons, List.foldl_cons,
    PM.loadLogLine_header headers hne (fun h hm => (hh h hm).1)
      (fun h hm => (hh h hm).2.2.2), hn₀,
    PM.loadLogLine_sep headers n₀ hne,
    PM.foldl_rows headers hne hdist vals []
      (fun vs hvs => ⟨(hv vs hvs).1,
        fun v hvm => ⟨((hv vs hvs).2.1 v hvm).1, ((hv vs hvs).2.1 v hvm).2.2.2⟩,
        (hv vs hvs).2.2⟩), List.nil_append]

/-- C4 witness: a concrete two-column table with a multi-word cell
round-trips exactly. -/
theorem c4_witness :
    PM.load_log_table_from_lines (PM.splitLines
      (PM.write_log ["A".data, "B".data]
        ([["x".data, "y z".data]].map
          (fun vs => (["A".data, "B".data]).zip vs)))) =
    (["A".data, "B".data],
     [["x".data, "y z".data]].map (fun vs => (["A".data, "B".data]).zip vs)) :=
  c4_pipe_roundtrip ["A".data, "B".data] [["x".data, "y z".data]]
    (by decide) (by decide) (by decide) (by decide)

/-- C4 counterexample to the claim as stated: a cell with a leading space
contains no pipe or newline and is not `"---"`, yet it does not round-trip —
the parser strips every cell, so `" x"` comes back as `"x"`. -/
theorem c4_counterexample :
    PM.load_log_table_from_lines (PM.splitLines
      (PM.write_log ["A".data] [[("A".data, " x".data)]])) =
      (["A".data], [[("A".data, "x".data)]]) ∧
    ([[("A".data, "x".data)]] : List PM.Row) ≠ [[("A".data, " x".data)]] := by
  refine ⟨by decide, by decide⟩

